import Mathlib

/-! Shallow embedding of the record-normalization core of `mg_simulazione.py`
(and its duplicate in `mg_simulazione_app_gsheet_sync_full_MGSTORICO.py`):
the functions `_ensure_ids`, `_normalize`, `profit_unit_stake`,
`profit_with_stake`, and the stringifying write/read cycle of
`_write_generic` / `_load_generic`.

A spreadsheet table is a header (list of column names) plus rows of cells.
A cell is a string, a numeric value, or null (pandas NaN / None).  Numeric
cells are modelled by `ℚ`, covering both the int64 and the float64 values the
code manipulates; `pd.to_numeric(errors="coerce")` is modelled by a
decimal-numeral parser `parseNum` (optional sign, digits, optional fractional
part, surrounding whitespace ignored), and `.astype(str)` by `cellToStr`.
Python's `int(...)` truncation toward zero is modelled by `truncQ`. -/

inductive Cell where
  | str (s : String)
  | num (q : ℚ)
  | null
deriving DecidableEq

abbrev Row := List Cell

structure Table where
  cols : List String
  rows : List Row
deriving DecidableEq

/-! Decimal-numeral parsing, modelling `pd.to_numeric(errors="coerce")` on a
string cell. -/

def isWs (c : Char) : Bool := c == ' ' || c == '\t' || c == '\n' || c == '\r'

def trimC (l : List Char) : List Char :=
  ((l.dropWhile isWs).reverse.dropWhile isWs).reverse

def isDig (c : Char) : Bool := decide ('0' ≤ c ∧ c ≤ '9')

def digVal (c : Char) : ℕ := c.toNat - 48

def digitsVal (l : List Char) : ℕ := l.foldl (fun a c => 10 * a + digVal c) 0

def parseUnsigned (l : List Char) : Option ℚ :=
  let ip := l.takeWhile isDig
  let rest := l.dropWhile isDig
  match rest with
  | [] => if ip.isEmpty then none else some (digitsVal ip)
  | '.' :: fp =>
    if (ip.isEmpty && fp.isEmpty) || !(fp.all isDig) then none
    else some ((digitsVal ip : ℚ) + (digitsVal fp : ℚ) / 10 ^ fp.length)
  | _ => none

def parseSigned (l : List Char) : Option ℚ :=
  match l with
  | '-' :: rest => (parseUnsigned rest).map (fun q => -q)
  | '+' :: rest => parseUnsigned rest
  | _ => parseUnsigned l

def parseNum (s : String) : Option ℚ := parseSigned (trimC s.data)

/-- Model of Python `int(x)` on a numeric value: truncation toward zero. -/
def truncQ (q : ℚ) : ℤ := q.num.tdiv q.den

/-- Maximum of a list of numeric values (pandas `.max()` over the non-null
entries; the code only calls it when the list is nonempty). -/
def maxQ : List ℚ → ℚ
  | [] => 0
  | q :: l => l.foldl max q

/-! Printing a value back to a string, modelling `.astype(str)` on write-back.
Integer values print with no decimal point (int64 column); non-integer values
with a finite decimal expansion print as a decimal numeral (possibly with
trailing zeros, which is harmless: parsing recovers the same value); other
rationals (which never arise from parsed input) fall back to a `p/q` form. -/

def natToChars (n : ℕ) : List Char :=
  if n = 0 then ['0'] else ((Nat.digits 10 n).map Nat.digitChar).reverse

def padZeros (k : ℕ) (l : List Char) : List Char :=
  List.replicate (k - l.length) '0' ++ l

def decChars (m k : ℕ) : List Char :=
  natToChars (m / 10 ^ k) ++ '.' :: padZeros k (natToChars (m % 10 ^ k))

def ratToChars (q : ℚ) : List Char :=
  if q.den = 1 then (if q < 0 then ['-'] else []) ++ natToChars q.num.natAbs
  else if 10 ^ (q.den.log2 + 1) % q.den = 0 then
    (if q < 0 then ['-'] else []) ++
      decChars (q.num.natAbs * (10 ^ (q.den.log2 + 1) / q.den)) (q.den.log2 + 1)
  else (if q < 0 then ['-'] else []) ++ natToChars q.num.natAbs ++ '/' :: natToChars q.den

def numToStr (q : ℚ) : String := String.mk (ratToChars q)

/-! Element-wise pandas operations used by `_normalize`. -/

/-- `pd.to_numeric(errors="coerce")` on one cell. -/
def toNum (c : Cell) : Cell :=
  match c with
  | Cell.str s =>
    match parseNum s with
    | some q => Cell.num q
    | none => Cell.null
  | Cell.num q => Cell.num q
  | Cell.null => Cell.null

/-- `.fillna(v)` on one cell. -/
def fillna (v : Cell) (c : Cell) : Cell :=
  match c with
  | Cell.null => v
  | c => c

/-- `.replace({a: b})` on one cell. -/
def replaceCell (a b c : Cell) : Cell := if c = a then b else c

/-- `df.loc[~df[col].isin(s), col] = fb` on one cell. -/
def isinCoerce (s : List Cell) (fb : Cell) (c : Cell) : Cell :=
  if c ∈ s then c else fb

/-- The mask `.astype(str).str.strip().eq("")` on one cell: a numeric or null
cell stringifies to a nonempty non-whitespace word, so only string cells can
be blank. -/
def isBlankCell : Cell → Bool
  | Cell.str s => (trimC s.data).isEmpty
  | _ => false

/-- `.astype(str)` on one cell (pandas prints NaN as `"nan"`). -/
def cellToStr : Cell → String
  | Cell.str s => s
  | Cell.num q => numToStr q
  | Cell.null => "nan"

/-! The table model: DataFrame-like column operations. -/

def colIdx (t : Table) (c : String) : Option ℕ :=
  t.cols.findIdx? (fun d => d == c)

def getCell (r : Row) : Option ℕ → Cell
  | some j => r.getD j Cell.null
  | none => Cell.null

/-- The values of column `c`, in row order (`df[c]`). -/
def colVals (t : Table) (c : String) : List Cell :=
  t.rows.map (fun r => getCell r (colIdx t c))

/-- `df[c] = df[c].map(f)` (the column is present at every use site). -/
def mapCol (t : Table) (c : String) (f : Cell → Cell) : Table :=
  match colIdx t c with
  | none => t
  | some j => { t with rows := t.rows.map (fun r => r.set j (f (r.getD j Cell.null))) }

/-- `df[c] = vs` for a list of per-row values (the lengths always agree at the
use sites). -/
def setColList (t : Table) (c : String) (vs : List Cell) : Table :=
  match colIdx t c with
  | none => t
  | some j => { t with rows := (t.rows.zip vs).map (fun p => p.1.set j p.2) }

/-- `df[c] = ""` for a column absent from the frame: appended at the end. -/
def addCol (t : Table) (c : String) (v : Cell) : Table :=
  { cols := t.cols ++ [c], rows := t.rows.map (fun r => r ++ [v]) }

/-- The loop `for c in required_cols: if c not in df.columns: df[c] = ""`. -/
def ensureCols (t : Table) (req : List String) : Table :=
  req.foldl (fun acc c => if c ∈ acc.cols then acc else addCol acc c (Cell.str "")) t

/-- Column reindexing `df[required_cols]`. -/
def select (t : Table) (req : List String) : Table :=
  { cols := req, rows := t.rows.map (fun r => req.map (fun c => getCell r (colIdx t c))) }

/-- Sort key of one cell: after `_ensure_ids` the ID column holds only
numeric cells, so the default branch is never hit. -/
def cellKey : Cell → ℚ
  | Cell.num q => q
  | _ => 0

/-- Sort key for `sort_values("ID")` on one row. -/
def rowKey (j : Option ℕ) (r : Row) : ℚ := cellKey (getCell r j)

def rowLe (j : Option ℕ) (a b : Row) : Prop := rowKey j a ≤ rowKey j b

instance (j : Option ℕ) : DecidableRel (rowLe j) := fun a b => by
  unfold rowLe; infer_instance

/-- `df.sort_values("ID").reset_index(drop=True)` (a stable sort; the order of
rows with equal keys is never relevant to the statements below). -/
def sortById (t : Table) : Table :=
  { cols := t.cols, rows := List.insertionSort (rowLe (colIdx t "ID")) t.rows }

/-- Shape invariant of a DataFrame: every row has one cell per column. -/
def WF (t : Table) : Prop := ∀ r ∈ t.rows, r.length = t.cols.length

instance (t : Table) : Decidable (WF t) := by unfold WF; infer_instance

/-! The source functions. -/

def LEAGUES : List String :=
  ["Serie A","Serie B","Premier League","Bundesliga","Liga","Ligue 1",
   "Eredivisie","Primeira Liga (Portogallo)","Altro"]

def OUTCOMES : List String := ["In attesa","Vinta","Persa"]

def outcomeCells : List Cell := OUTCOMES.map Cell.str
def leagueCells : List Cell := LEAGUES.map Cell.str

def REQUIRED_COLUMNS_SINGOLE : List String :=
  ["ID","Data","Campionato","Partita","Mercato","Quota","Esito","Note"]

def REQUIRED_COLUMNS_MULTIPLE : List String :=
  ["ID","Data","Multipla","Quota Totale","Stake","Esito","Note"]

inductive Kind where
  | singole
  | multiple
deriving DecidableEq

def requiredCols : Kind → List String
  | Kind.singole => REQUIRED_COLUMNS_SINGOLE
  | Kind.multiple => REQUIRED_COLUMNS_MULTIPLE

/-- The numeric (non-null) entries of a parsed id column
(`id_num[id_num.notna()]`). -/
def numsOf (l : List Cell) : List ℚ :=
  l.filterMap (fun c => match c with | Cell.num q => some q | _ => none)

/-- `df.loc[missing, "ID"] = list(range(max_id+1, max_id+1+missing.sum()))`:
null entries receive consecutive values starting at `next`, in row order. -/
def fillMissing : List Cell → ℤ → List Cell
  | [], _ => []
  | Cell.null :: rest, next => Cell.num (next : ℚ) :: fillMissing rest (next + 1)
  | c :: rest, next => c :: fillMissing rest next

/-- `.astype(int)` on one id cell (> after the fill, the column is all
numeric). -/
def truncCell : Cell → Cell
  | Cell.num q => Cell.num ((truncQ q : ℤ) : ℚ)
  | c => c

/-- `_ensure_ids` (mg_simulazione.py lines 68-82): parse the ID column
numerically; if the non-null values contain a duplicate, renumber every row
densely `1..N` in row order; otherwise keep the existing values, fill the
null ones with consecutive integers above the truncated maximum, and cast the
whole column to int (truncation toward zero). -/
def _ensure_ids (t : Table) : Table :=
  if t.rows = [] ∨ t.cols = [] then t else
  let t1 := mapCol t "ID" toNum
  let pids := colVals t1 "ID"
  let nn := numsOf pids
  if nn ≠ [] ∧ ¬ nn.Nodup then
    setColList t1 "ID" ((List.range t1.rows.length).map (fun i : ℕ => Cell.num ((i + 1 : ℕ) : ℚ)))
  else
    let maxId : ℤ := if nn = [] then 0 else truncQ (maxQ nn)
    setColList t1 "ID" ((fillMissing pids (maxId + 1)).map truncCell)

/-- One column assignment per source line of `_normalize`, applied left to
right. -/
def applyOps (t : Table) : List (String × (Cell → Cell)) → Table
  | [] => t
  | (c, f) :: ops => applyOps (mapCol t c f) ops

/-- The field coercions shared by both kinds (mg_simulazione.py lines 93-100),
one list entry per line, in source order. -/
def commonOps (today : String) : List (String × (Cell → Cell)) :=
  [("Esito", fun c => replaceCell (Cell.str "") (Cell.str "In attesa") (fillna (Cell.str "") c)),
   ("Esito", isinCoerce outcomeCells (Cell.str "In attesa")),
   ("Data", fillna (Cell.str "")),
   ("Data", fun c => if isBlankCell c then Cell.str today else c),
   ("Note", fillna (Cell.str ""))]

/-- All field coercions of `_normalize` for one kind (mg_simulazione.py lines
93-111): the common ones followed by the branch of the `if kind == ...`. -/
def normOps : Kind → String → List (String × (Cell → Cell))
  | Kind.singole, today =>
    commonOps today ++
      [("Quota", toNum),
       ("Campionato", fillna (Cell.str "Altro")),
       ("Campionato", isinCoerce leagueCells (Cell.str "Altro")),
       ("Partita", fillna (Cell.str "")),
       ("Mercato", fillna (Cell.str ""))]
  | Kind.multiple, today =>
    commonOps today ++
      [("Quota Totale", toNum),
       ("Stake", fun c => fillna (Cell.num 0) (toNum c)),
       ("Multipla", fillna (Cell.str ""))]

/-- `_normalize` (mg_simulazione.py lines 84-116).  `today` is the value of
`datetime.now().strftime("%Y-%m-%d")` at the moment of the call. -/
def _normalize (kind : Kind) (today : String) (t : Table) : Table :=
  if t.rows = [] ∨ t.cols = [] then { cols := requiredCols kind, rows := [] } else
  sortById (select
    (_ensure_ids (applyOps (ensureCols t (requiredCols kind)) (normOps kind today)))
    (requiredCols kind))

/-- `profit_unit_stake` (mg_simulazione.py lines 166-173); a `none` odds value
models a NaN (`pd.isna`). -/
def profit_unit_stake (odds : Option ℚ) (outcome : String) : ℚ :=
  match odds with
  | none => 0
  | some q =>
    if outcome = "Vinta" then q - 1
    else if outcome = "Persa" then -1
    else 0

/-- `profit_with_stake` (mg_simulazione.py lines 175-183). -/
def profit_with_stake (odds : Option ℚ) (outcome : String) (stake : Option ℚ) : ℚ :=
  match odds, stake with
  | some q, some s =>
    if outcome = "Vinta" then s * (q - 1)
    else if outcome = "Persa" then -s
    else 0
  | _, _ => 0

/-- The store cycle of `_write_generic` / `_load_generic`: writing stringifies
every cell (`df.astype(str)`), and a subsequent load presents every cell as a
string again under the same header. -/
def stringifyTable (t : Table) : Table :=
  { cols := t.cols, rows := t.rows.map (fun r => r.map (fun c => Cell.str (cellToStr c))) }

/-- A cell holding a string (the only kind the string-typed store reproduces
verbatim). -/
def isStrCell : Cell → Bool
  | Cell.str _ => true
  | _ => false

/-- A rational with a finite decimal expansion: exactly the values whose
printed form (`ratToChars`) parses back to the same value.  Every number the
pipeline obtains by parsing a decimal numeral is of this shape; it is the
model's counterpart of "a float whose repr round-trips". -/
def decRep (q : ℚ) : Prop := q.den = 1 ∨ 10 ^ (q.den.log2 + 1) % q.den = 0

instance (q : ℚ) : Decidable (decRep q) := by unfold decRep; infer_instance

/-- Every cell of the table is a string: the shape of any table read from the
string-typed store (`_load_generic` builds the frame from `get_all_values`,
which yields strings only). -/
def AllStr (t : Table) : Prop := ∀ r ∈ t.rows, ∀ c ∈ r, isStrCell c = true

instance (t : Table) : Decidable (AllStr t) := by unfold AllStr; infer_instance

/-! Auxiliary facts about lists and column indexing. -/

theorem getD_set_self {α : Type} (l : List α) (j : ℕ) (v d : α) (h : j < l.length) :
    (l.set j v).getD j d = v := by
  simp [List.getD, List.getElem?_set_self, h]

theorem getD_set_ne {α : Type} (l : List α) {i j : ℕ} (v d : α) (h : i ≠ j) :
    (l.set j v).getD i d = l.getD i d := by
  simp [List.getD, List.getElem?_set_ne (Ne.symm h)]

theorem set_getD_own {α : Type} : ∀ (l : List α) (j : ℕ) (d : α), j < l.length →
    l.set j (l.getD j d) = l
  | [], j, d, h => by simp at h
  | a :: l, 0, d, _ => by simp [List.getD]
  | a :: l, j + 1, d, h => by
    have := set_getD_own l j d (by simpa using h)
    simp only [List.set, List.getD, List.getElem?_cons_succ]
    simpa [List.getD] using this

theorem colIdx_lt {t : Table} {c : String} {j : ℕ} (h : colIdx t c = some j) :
    j < t.cols.length := by
  rcases List.findIdx?_eq_some_iff_getElem.1 h with ⟨hj, _, _⟩
  exact hj

theorem colIdx_get {t : Table} {c : String} {j : ℕ} (h : colIdx t c = some j) :
    ∃ hj : j < t.cols.length, t.cols[j] = c := by
  rcases List.findIdx?_eq_some_iff_getElem.1 h with ⟨hj, hp, _⟩
  exact ⟨hj, by simpa using hp⟩

theorem colIdx_eq_none_iff {t : Table} {c : String} : colIdx t c = none ↔ c ∉ t.cols := by
  rw [colIdx, List.findIdx?_eq_none_iff]
  constructor
  · intro h hc
    simpa using h c hc
  · intro h x hx
    simp only [beq_eq_false_iff_ne, ne_eq]
    rintro rfl
    exact h hx

theorem colIdx_isSome_of_mem {t : Table} {c : String} (h : c ∈ t.cols) :
    ∃ j, colIdx t c = some j := by
  cases hj : colIdx t c with
  | none => exact absurd (colIdx_eq_none_iff.1 hj) (by simpa using h)
  | some j => exact ⟨j, rfl⟩

theorem colIdx_ne {t : Table} {c d : String} {j j' : ℕ}
    (hc : colIdx t c = some j) (hd : colIdx t d = some j') (hcd : c ≠ d) : j ≠ j' := by
  rcases colIdx_get hc with ⟨hj, hjc⟩
  rcases colIdx_get hd with ⟨hj', hjd⟩
  rintro rfl
  exact hcd (hjc ▸ hjd ▸ rfl)

/-! Basic structural lemmas for the table operations. -/

theorem cols_mapCol (t : Table) (c : String) (f : Cell → Cell) :
    (mapCol t c f).cols = t.cols := by
  unfold mapCol
  cases colIdx t c <;> rfl

theorem rows_length_mapCol (t : Table) (c : String) (f : Cell → Cell) :
    (mapCol t c f).rows.length = t.rows.length := by
  unfold mapCol
  cases colIdx t c <;> simp

theorem WF_mapCol {t : Table} (c : String) (f : Cell → Cell) (h : WF t) :
    WF (mapCol t c f) := by
  unfold mapCol
  cases hj : colIdx t c with
  | none => exact h
  | some j =>
    intro r hr
    simp only [List.mem_map] at hr
    rcases hr with ⟨r₀, hr₀, rfl⟩
    simpa using h r₀ hr₀

theorem cols_setColList (t : Table) (c : String) (vs : List Cell) :
    (setColList t c vs).cols = t.cols := by
  unfold setColList
  cases colIdx t c <;> rfl

theorem rows_length_setColList (t : Table) (c : String) (vs : List Cell)
    (hvs : vs.length = t.rows.length) :
    (setColList t c vs).rows.length = t.rows.length := by
  unfold setColList
  cases colIdx t c <;> simp [hvs]

theorem WF_setColList {t : Table} (c : String) (vs : List Cell) (h : WF t) :
    WF (setColList t c vs) := by
  unfold setColList
  cases hj : colIdx t c with
  | none => exact h
  | some j =>
    intro r hr
    simp only [List.mem_map] at hr
    rcases hr with ⟨⟨r₀, v⟩, hr₀, rfl⟩
    have := List.of_mem_zip hr₀
    simpa using h r₀ this.1

/-! How `colVals` interacts with the table operations. -/

theorem colVals_length (t : Table) (c : String) : (colVals t c).length = t.rows.length := by
  simp [colVals]

theorem colVals_mapCol_self {t : Table} {c : String} (f : Cell → Cell) (hwf : WF t)
    (hc : c ∈ t.cols) : colVals (mapCol t c f) c = (colVals t c).map f := by
  rcases colIdx_isSome_of_mem hc with ⟨j, hj⟩
  have hjlt := colIdx_lt hj
  have hcols : (mapCol t c f).cols = t.cols := cols_mapCol t c f
  have hidx : colIdx (mapCol t c f) c = some j := by
    unfold colIdx at hj ⊢
    rw [hcols]
    exact hj
  unfold colVals mapCol
  rw [hj]
  simp only [hj] at hidx ⊢
  unfold mapCol at hidx
  rw [hj] at hidx
  simp only [hidx, List.map_map]
  apply List.map_congr_left
  intro r hr
  have hlen : r.length = t.cols.length := hwf r hr
  simp only [Function.comp, getCell]
  rw [getD_set_self _ _ _ _ (by rw [hlen]; exact hjlt)]

theorem colVals_mapCol_ne {t : Table} {c d : String} (f : Cell → Cell) (hcd : d ≠ c) :
    colVals (mapCol t c f) d = colVals t d := by
  cases hj : colIdx t c with
  | none => unfold mapCol; rw [hj]
  | some j =>
    have hcols : (mapCol t c f).cols = t.cols := cols_mapCol t c f
    have hidx : colIdx (mapCol t c f) d = colIdx t d := by
      unfold colIdx
      rw [hcols]
    unfold colVals
    rw [hidx]
    cases hd : colIdx t d with
    | none =>
      unfold mapCol
      rw [hj]
      simp [getCell, Function.comp_def, List.map_const']
    | some j' =>
      have hne : j' ≠ j := colIdx_ne hd hj hcd
      unfold mapCol
      rw [hj]
      simp only [List.map_map]
      apply List.map_congr_left
      intro r hr
      simp only [Function.comp, getCell]
      rw [getD_set_ne _ _ _ hne]

theorem colVals_setColList_self {t : Table} {c : String} {vs : List Cell} (hwf : WF t)
    (hc : c ∈ t.cols) (hlen : vs.length = t.rows.length) :
    colVals (setColList t c vs) c = vs := by
  rcases colIdx_isSome_of_mem hc with ⟨j, hj⟩
  have hjlt := colIdx_lt hj
  have hidx : colIdx (setColList t c vs) c = some j := by
    unfold colIdx
    rw [cols_setColList]
    exact hj
  unfold colVals
  rw [hidx]
  unfold setColList
  rw [hj]
  simp only [List.map_map]
  have hzlen : (t.rows.zip vs).length = vs.length := by
    rw [List.length_zip, hlen, Nat.min_self]
  apply List.ext_getElem
  · simp [hzlen]
  · intro i h1 h2
    simp only [List.getElem_map, Function.comp]
    have hizip : i < (t.rows.zip vs).length := by simpa using h1
    have hrlen : i < t.rows.length := by omega
    rw [List.getElem_zip]
    simp only [getCell]
    have hrl : (t.rows[i]).length = t.cols.length := hwf _ (List.getElem_mem hrlen)
    rw [getD_set_self _ _ _ _ (by rw [hrl]; exact hjlt)]

theorem colVals_setColList_ne {t : Table} {c d : String} {vs : List Cell} (hcd : d ≠ c)
    (hlen : vs.length = t.rows.length) :
    colVals (setColList t c vs) d = colVals t d := by
  cases hj : colIdx t c with
  | none => unfold setColList; rw [hj]
  | some j =>
    have hidx : colIdx (setColList t c vs) d = colIdx t d := by
      unfold colIdx
      rw [cols_setColList]
    unfold colVals
    rw [hidx]
    unfold setColList
    rw [hj]
    cases hd : colIdx t d with
    | none =>
      simp [getCell, Function.comp_def, List.map_const', List.length_zip, hlen]
    | some j' =>
      have hne : j' ≠ j := colIdx_ne hd hj hcd
      apply List.ext_getElem
      · simp [List.length_zip, hlen]
      · intro i h1 h2
        have hizip : i < (t.rows.zip vs).length := by simpa using h1
        simp only [List.getElem_map]
        rw [List.getElem_zip]
        simp only [getCell]
        rw [getD_set_ne _ _ _ hne]

/-! Composition and fixpoint lemmas for the column operations. -/

theorem mapCol_mapCol {t : Table} {c : String} (f g : Cell → Cell) (hwf : WF t) :
    mapCol (mapCol t c f) c g = mapCol t c (fun x => g (f x)) := by
  cases hj : colIdx t c with
  | none =>
    have h1 : mapCol t c f = t := by unfold mapCol; rw [hj]
    rw [h1]
    have h2 : mapCol t c g = t := by unfold mapCol; rw [hj]
    have h3 : mapCol t c (fun x => g (f x)) = t := by unfold mapCol; rw [hj]
    rw [h2, h3]
  | some j =>
    have hjlt := colIdx_lt hj
    have hidx : colIdx (mapCol t c f) c = some j := by
      unfold colIdx
      rw [cols_mapCol]
      exact hj
    unfold mapCol
    rw [hj]
    simp only [hj] at hidx
    unfold mapCol at hidx
    rw [hj] at hidx
    simp only [hidx, List.map_map]
    cases t with
    | mk cols rows =>
      have hjlt2 : j < cols.length := hjlt
      simp only [Table.mk.injEq, true_and]
      apply List.map_congr_left
      intro r hr
      have hlen : r.length = cols.length := hwf r hr
      simp only [Function.comp]
      rw [show (List.set r j (f (r.getD j Cell.null))).getD j Cell.null
            = f (r.getD j Cell.null) from getD_set_self _ _ _ _ (by omega),
          List.set_set]

theorem mapCol_eq_self {t : Table} {c : String} {f : Cell → Cell} (hwf : WF t)
    (hfix : ∀ v ∈ colVals t c, f v = v) : mapCol t c f = t := by
  cases hj : colIdx t c with
  | none => unfold mapCol; rw [hj]
  | some j =>
    have hjlt := colIdx_lt hj
    unfold mapCol
    rw [hj]
    cases t with
    | mk cols rows =>
      have hjlt2 : j < cols.length := hjlt
      simp only [Table.mk.injEq, true_and]
      have : ∀ r ∈ rows, List.set r j (f (r.getD j Cell.null)) = r := by
        intro r hr
        have hlen : r.length = cols.length := hwf r hr
        have hv : f (r.getD j Cell.null) = r.getD j Cell.null := by
          apply hfix
          unfold colVals
          simp only [List.mem_map]
          exact ⟨r, hr, by simp [getCell, hj]⟩
        rw [hv]
        exact set_getD_own r j Cell.null (by omega)
      calc List.map (fun r => List.set r j (f (r.getD j Cell.null))) rows
          = List.map id rows := List.map_congr_left this
        _ = rows := List.map_id rows

theorem setColList_own {t : Table} {c : String} (hwf : WF t) :
    setColList t c (colVals t c) = t := by
  cases hj : colIdx t c with
  | none => unfold setColList; rw [hj]
  | some j =>
    have hjlt := colIdx_lt hj
    unfold setColList
    rw [hj]
    cases t with
    | mk cols rows =>
      have hjlt2 : j < cols.length := hjlt
      simp only [Table.mk.injEq, true_and]
      unfold colVals at *
      simp only [hj] at *
      have hzip : rows.zip (List.map (fun r => getCell r (some j)) rows)
          = rows.map (fun r => (r, getCell r (some j))) := by
        rw [show rows.zip (List.map (fun r => getCell r (some j)) rows)
              = (rows.map id).zip (List.map (fun r => getCell r (some j)) rows) by rw [List.map_id],
            List.zip_map']
        simp only [id_eq]
      rw [hzip, List.map_map]
      have : ∀ r ∈ rows, ((fun p : Row × Cell => List.set p.1 j p.2) ∘
          fun r => (r, getCell r (some j))) r = r := by
        intro r hr
        have hlen : r.length = cols.length := hwf r hr
        simp only [Function.comp, getCell]
        exact set_getD_own r j Cell.null (by omega)
      calc List.map _ rows = List.map id rows := List.map_congr_left this
        _ = rows := List.map_id rows

/-! Lemmas about `addCol` / `ensureCols`. -/

theorem rows_length_addCol (t : Table) (c : String) (v : Cell) :
    (addCol t c v).rows.length = t.rows.length := by
  simp [addCol]

theorem WF_addCol {t : Table} (c : String) (v : Cell) (hwf : WF t) : WF (addCol t c v) := by
  intro r hr
  simp only [addCol, List.mem_map] at hr
  rcases hr with ⟨r₀, hr₀, rfl⟩
  simp [addCol, hwf r₀ hr₀]

theorem colVals_addCol_mem {t : Table} {c d : String} (v : Cell) (hwf : WF t)
    (hd : d ∈ t.cols) : colVals (addCol t c v) d = colVals t d := by
  rcases colIdx_isSome_of_mem hd with ⟨j, hj⟩
  have hjlt := colIdx_lt hj
  have hj' : List.findIdx? (fun x => x == d) t.cols = some j := hj
  have hidx : colIdx (addCol t c v) d = some j := by
    show List.findIdx? (fun x => x == d) (t.cols ++ [c]) = some j
    rw [List.findIdx?_append, hj']
    rfl
  unfold colVals
  rw [hidx, hj]
  show List.map (fun r => getCell r (some j)) (t.rows.map (fun r => r ++ [v]))
      = List.map (fun r => getCell r (some j)) t.rows
  rw [List.map_map]
  apply List.map_congr_left
  intro r hr
  have hlen : r.length = t.cols.length := hwf r hr
  simp only [Function.comp, getCell]
  simp [List.getD, List.getElem?_append, show j < r.length by omega]

theorem nodup_addCol {t : Table} {c : String} (v : Cell) (hn : t.cols.Nodup)
    (hc : c ∉ t.cols) : (addCol t c v).cols.Nodup := by
  simp [addCol, List.nodup_append, hn, hc]

theorem ensureCols_props : ∀ (req : List String) (t : Table), WF t →
    (ensureCols t req).rows.length = t.rows.length ∧
    WF (ensureCols t req) ∧
    (∀ c, c ∈ t.cols → c ∈ (ensureCols t req).cols) ∧
    (∀ c ∈ req, c ∈ (ensureCols t req).cols) ∧
    (t.cols.Nodup → (ensureCols t req).cols.Nodup) ∧
    (∀ d, d ∈ t.cols → colVals (ensureCols t req) d = colVals t d)
  | [], t, hwf => by
    refine ⟨rfl, hwf, fun c hc => hc, by simp, fun h => h, fun d hd => rfl⟩
  | c :: req, t, hwf => by
    have hstep : ensureCols t (c :: req)
        = ensureCols (if c ∈ t.cols then t else addCol t c (Cell.str "")) req := by
      unfold ensureCols
      simp only [List.foldl_cons]
    by_cases hc : c ∈ t.cols
    · rw [hstep, if_pos hc]
      rcases ensureCols_props req t hwf with ⟨h1, h2, h3, h4, h5, h6⟩
      refine ⟨h1, h2, h3, ?_, h5, h6⟩
      intro d hd
      rcases List.mem_cons.1 hd with rfl | hd2
      · exact h3 d hc
      · exact h4 d hd2
    · rw [hstep, if_neg hc]
      have hwf' : WF (addCol t c (Cell.str "")) := WF_addCol c _ hwf
      rcases ensureCols_props req (addCol t c (Cell.str "")) hwf' with ⟨h1, h2, h3, h4, h5, h6⟩
      refine ⟨by rw [h1, rows_length_addCol], h2, ?_, ?_, ?_, ?_⟩
      · intro d hd
        exact h3 d (by simp [addCol, hd])
      · intro d hd
        rcases List.mem_cons.1 hd with rfl | hd
        · exact h3 d (by simp [addCol])
        · exact h4 d hd
      · intro hnd
        exact h5 (nodup_addCol _ hnd hc)
      · intro d hd
        rw [h6 d (by simp [addCol, hd]), colVals_addCol_mem _ hwf hd]

/-! Lemmas about `select` and `sortById`. -/

theorem colVals_select {t : Table} {req : List String} {c : String} (hc : c ∈ req) :
    colVals (select t req) c = colVals t c := by
  have hi : req.findIdx? (fun d => d == c) = some (req.findIdx (fun d => d == c)) :=
    List.findIdx?_eq_some_of_exists ⟨c, hc, by simp⟩
  set i := req.findIdx (fun d => d == c) with hidef
  rcases List.findIdx?_eq_some_iff_getElem.1 hi with ⟨hilt, hpi, _⟩
  have hreqi : req[i] = c := by simpa using hpi
  have hidx : colIdx (select t req) c = some i := hi
  unfold colVals
  rw [hidx]
  show List.map (fun r => getCell r (some i))
        (t.rows.map (fun r => req.map (fun c => getCell r (colIdx t c))))
      = List.map (fun r => getCell r (colIdx t c)) t.rows
  rw [List.map_map]
  apply List.map_congr_left
  intro r hr
  simp only [Function.comp, getCell]
  rw [List.getD_eq_getElem _ _ (by simpa using hilt)]
  simp [hreqi]

theorem WF_select (t : Table) (req : List String) : WF (select t req) := by
  intro r hr
  simp only [select, List.mem_map] at hr
  rcases hr with ⟨r₀, _, rfl⟩
  simp [select]

theorem rows_length_select (t : Table) (req : List String) :
    (select t req).rows.length = t.rows.length := by
  simp [select]

theorem rows_sortById_perm (t : Table) : (sortById t).rows.Perm t.rows :=
  List.perm_insertionSort _ _

theorem colVals_sortById_perm (t : Table) (c : String) :
    (colVals (sortById t) c).Perm (colVals t c) := by
  have hidx : colIdx (sortById t) c = colIdx t c := by
    unfold colIdx sortById
    rfl
  unfold colVals
  rw [hidx]
  exact (rows_sortById_perm t).map _

theorem WF_sortById {t : Table} (hwf : WF t) : WF (sortById t) := by
  intro r hr
  exact hwf r ((rows_sortById_perm t).mem_iff.1 hr)

instance (j : Option ℕ) : IsTotal Row (rowLe j) :=
  ⟨fun a b => le_total (rowKey j a) (rowKey j b)⟩

instance (j : Option ℕ) : IsTrans Row (rowLe j) :=
  ⟨fun _ _ _ hab hbc => le_trans hab hbc⟩

theorem sorted_sortById (t : Table) :
    (sortById t).rows.Sorted (rowLe (colIdx t "ID")) := by
  unfold sortById
  exact List.sorted_insertionSort _ _

theorem sortById_eq_self {t : Table} (h : t.rows.Sorted (rowLe (colIdx t "ID"))) :
    sortById t = t := by
  unfold sortById
  cases t with
  | mk cols rows => simp [List.Sorted.insertionSort_eq h]

/-! Claim C8: profit formulas. -/

/-- C8: for every record, profit is computed as: single wager at unit stake —
`Vinta` (Won) yields `odds - 1`, `Persa` (Lost) yields `-1`, `In attesa`
(Pending) yields `0`; combination wager — Won yields `stake * (total_odds - 1)`,
Lost yields `-stake`, Pending yields `0`. -/
theorem profit_formulas (q s : ℚ) :
    profit_unit_stake (some q) "Vinta" = q - 1 ∧
    profit_unit_stake (some q) "Persa" = -1 ∧
    profit_unit_stake (some q) "In attesa" = 0 ∧
    profit_with_stake (some q) "Vinta" (some s) = s * (q - 1) ∧
    profit_with_stake (some q) "Persa" (some s) = -s ∧
    profit_with_stake (some q) "In attesa" (some s) = 0 :=
  ⟨rfl, rfl, rfl, rfl, rfl, rfl⟩

/-! Claim C10: null numeric inputs always give zero profit. -/

/-- C10: for every outcome string, including `Vinta` and `Persa`,
`profit_unit_stake` returns `0` whenever the odds are null (NaN), and
`profit_with_stake` returns `0` whenever the total odds or the stake are
null; in particular a lost record whose odds failed to parse contributes
`0`. -/
theorem profit_null_inputs (outcome : String) (q s : ℚ) :
    profit_unit_stake none outcome = 0 ∧
    profit_with_stake none outcome (some s) = 0 ∧
    profit_with_stake (some q) outcome none = 0 ∧
    profit_with_stake none outcome none = 0 ∧
    profit_unit_stake none "Persa" = 0 ∧
    profit_with_stake none "Persa" (some s) = 0 :=
  ⟨rfl, rfl, rfl, rfl, rfl, rfl⟩

/-! Claim C3: `_normalize` is total and always produces the canonical
columns. -/

/-- C3: for every raw input table (including the empty one) and each of the
two valid record kinds, `_normalize` raises no exception (it is a total
function of the embedding) and returns a table whose columns are exactly the
canonical column set of that kind in canonical order; an empty input yields
the empty table with those columns rather than an error. -/
theorem normalize_cols_total (kind : Kind) (today : String) (t : Table) :
    (_normalize kind today t).cols = requiredCols kind ∧
    (t.rows = [] → _normalize kind today t = { cols := requiredCols kind, rows := [] }) := by
  constructor
  · unfold _normalize
    split
    · rfl
    · rfl
  · intro h
    unfold _normalize
    rw [if_pos (Or.inl h)]

/-- Witness for C3 at a concrete empty input. -/
theorem normalize_cols_total_witness :
    (Table.mk ([] : List String) ([] : List Row)).rows = [] ∧
    _normalize Kind.singole "2024-05-05" (Table.mk [] [])
      = { cols := requiredCols Kind.singole, rows := [] } :=
  ⟨rfl, (normalize_cols_total Kind.singole "2024-05-05" (Table.mk [] [])).2 rfl⟩

/-! The effect of the coercion stage on each column. -/

/-- Net effect on one cell of column `d` of applying the operation list in
order. -/
def netFun (ops : List (String × (Cell → Cell))) (d : String) (x : Cell) : Cell :=
  ops.foldl (fun acc p => if p.1 = d then p.2 acc else acc) x

theorem cols_applyOps : ∀ (ops : List (String × (Cell → Cell))) (t : Table),
    (applyOps t ops).cols = t.cols
  | [], t => rfl
  | (c, f) :: ops, t => by
    rw [show applyOps t ((c, f) :: ops) = applyOps (mapCol t c f) ops from rfl,
      cols_applyOps ops, cols_mapCol]

theorem WF_applyOps : ∀ (ops : List (String × (Cell → Cell))) (t : Table), WF t →
    WF (applyOps t ops)
  | [], _, hwf => hwf
  | (c, f) :: ops, _, hwf => WF_applyOps ops _ (WF_mapCol c f hwf)

theorem rows_length_applyOps : ∀ (ops : List (String × (Cell → Cell))) (t : Table),
    (applyOps t ops).rows.length = t.rows.length
  | [], t => rfl
  | (c, f) :: ops, t => by
    rw [show applyOps t ((c, f) :: ops) = applyOps (mapCol t c f) ops from rfl,
      rows_length_applyOps ops, rows_length_mapCol]

theorem colVals_applyOps : ∀ (ops : List (String × (Cell → Cell))) (t : Table), WF t →
    ∀ d, d ∈ t.cols → colVals (applyOps t ops) d = (colVals t d).map (netFun ops d)
  | [], t, hwf, d, hd => by
    rw [show netFun [] d = id from rfl, List.map_id]
    rfl
  | (c, f) :: ops, t, hwf, d, hd => by
    rw [show applyOps t ((c, f) :: ops) = applyOps (mapCol t c f) ops from rfl]
    have hd' : d ∈ (mapCol t c f).cols := by rw [cols_mapCol]; exact hd
    rw [colVals_applyOps ops _ (WF_mapCol c f hwf) d hd']
    by_cases hcd : c = d
    · subst hcd
      rw [colVals_mapCol_self f hwf hd, List.map_map]
      congr 1
      funext x
      simp [netFun, Function.comp]
    · rw [colVals_mapCol_ne f (fun h => hcd h.symm)]
      congr 1
      funext x
      unfold netFun
      rw [List.foldl_cons]
      simp [hcd]

/-! The net per-cell coercion of each field, as composed from the source
lines, and its characterization in the spec's terms. -/

/-- Net `Esito` coercion (lines 94-95): `fillna("")`, `replace("" → "In
attesa")`, then the not-`isin` mask. -/
def esitoCoe (c : Cell) : Cell :=
  isinCoerce outcomeCells (Cell.str "In attesa")
    (replaceCell (Cell.str "") (Cell.str "In attesa") (fillna (Cell.str "") c))

/-- Net `Campionato` coercion (lines 104-105). -/
def campionatoCoe (c : Cell) : Cell :=
  isinCoerce leagueCells (Cell.str "Altro") (fillna (Cell.str "Altro") c)

/-- Net `Data` coercion (lines 97-98). -/
def dataCoe (today : String) (c : Cell) : Cell :=
  if isBlankCell (fillna (Cell.str "") c) then Cell.str today else fillna (Cell.str "") c

/-- Net `Stake` coercion (line 110). -/
def stakeCoe (c : Cell) : Cell := fillna (Cell.num 0) (toNum c)

theorem esitoCoe_spec (c : Cell) :
    esitoCoe c = if c ∈ outcomeCells then c else Cell.str "In attesa" := by
  cases c with
  | null => rfl
  | num q =>
    have : Cell.num q ∉ outcomeCells := by simp [outcomeCells, OUTCOMES]
    simp [esitoCoe, fillna, replaceCell, isinCoerce, this]
  | str s =>
    by_cases hs : s = ""
    · subst hs
      have : Cell.str "" ∉ outcomeCells := by simp [outcomeCells, OUTCOMES]
      simp [esitoCoe, fillna, replaceCell, isinCoerce, this]
    · simp [esitoCoe, fillna, replaceCell, isinCoerce, hs]

theorem campionatoCoe_spec (c : Cell) :
    campionatoCoe c = if c ∈ leagueCells then c else Cell.str "Altro" := by
  cases c with
  | null =>
    have : Cell.null ∉ leagueCells := by simp [leagueCells, LEAGUES]
    have h2 : Cell.str "Altro" ∈ leagueCells := by simp [leagueCells, LEAGUES]
    simp [campionatoCoe, fillna, isinCoerce, this, h2]
  | num q =>
    have : Cell.num q ∉ leagueCells := by simp [leagueCells, LEAGUES]
    simp [campionatoCoe, fillna, isinCoerce, this]
  | str s => simp [campionatoCoe, fillna, isinCoerce]

/-! Column lemmas for `_ensure_ids`. -/

theorem fillMissing_length : ∀ (l : List Cell) (next : ℤ),
    (fillMissing l next).length = l.length
  | [], _ => rfl
  | Cell.null :: rest, next => by
    rw [show fillMissing (Cell.null :: rest) next
        = Cell.num ((next : ℤ) : ℚ) :: fillMissing rest (next + 1) from rfl]
    simp [fillMissing_length rest]
  | Cell.str s :: rest, next => by
    rw [show fillMissing (Cell.str s :: rest) next
        = Cell.str s :: fillMissing rest next from rfl]
    simp [fillMissing_length rest]
  | Cell.num q :: rest, next => by
    rw [show fillMissing (Cell.num q :: rest) next
        = Cell.num q :: fillMissing rest next from rfl]
    simp [fillMissing_length rest]

theorem cols_ensure_ids (t : Table) : (_ensure_ids t).cols = t.cols := by
  unfold _ensure_ids
  split
  · rfl
  · dsimp only
    split <;> rw [cols_setColList, cols_mapCol]

theorem colVals_ensure_ids_ne {t : Table} {d : String} (hd : d ≠ "ID") :
    colVals (_ensure_ids t) d = colVals t d := by
  unfold _ensure_ids
  split
  · rfl
  · dsimp only
    split
    · rw [colVals_setColList_ne hd (by simp [rows_length_mapCol]),
        colVals_mapCol_ne _ hd]
    · rw [colVals_setColList_ne hd ?hlen, colVals_mapCol_ne _ hd]
      case hlen =>
        rw [List.length_map, fillMissing_length, colVals_length, rows_length_mapCol]

theorem rows_length_ensure_ids (t : Table) : (_ensure_ids t).rows.length = t.rows.length := by
  unfold _ensure_ids
  split
  · rfl
  · dsimp only
    split
    · rw [rows_length_setColList _ _ _ (by simp [rows_length_mapCol]), rows_length_mapCol]
    · rw [rows_length_setColList _ _ _ ?hlen, rows_length_mapCol]
      case hlen =>
        rw [List.length_map, fillMissing_length, colVals_length, rows_length_mapCol]

theorem WF_ensure_ids {t : Table} (hwf : WF t) : WF (_ensure_ids t) := by
  unfold _ensure_ids
  split
  · exact hwf
  · dsimp only
    split <;> exact WF_setColList _ _ (WF_mapCol _ _ hwf)

/-! Evaluating the net coercion of each column name. -/

theorem netFun_esito (kind : Kind) (today : String) :
    netFun (normOps kind today) "Esito" = esitoCoe := by
  cases kind <;> (funext x; rfl)

theorem netFun_data (kind : Kind) (today : String) :
    netFun (normOps kind today) "Data" = dataCoe today := by
  cases kind <;> (funext x; rfl)

theorem netFun_note (kind : Kind) (today : String) :
    netFun (normOps kind today) "Note" = fillna (Cell.str "") := by
  cases kind <;> (funext x; rfl)

theorem netFun_id (kind : Kind) (today : String) :
    netFun (normOps kind today) "ID" = id := by
  cases kind <;> (funext x; rfl)

theorem netFun_quota (today : String) :
    netFun (normOps Kind.singole today) "Quota" = toNum := by
  funext x; rfl

theorem netFun_campionato (today : String) :
    netFun (normOps Kind.singole today) "Campionato" = campionatoCoe := by
  funext x; rfl

theorem netFun_partita (today : String) :
    netFun (normOps Kind.singole today) "Partita" = fillna (Cell.str "") := by
  funext x; rfl

theorem netFun_mercato (today : String) :
    netFun (normOps Kind.singole today) "Mercato" = fillna (Cell.str "") := by
  funext x; rfl

theorem netFun_quota_totale (today : String) :
    netFun (normOps Kind.multiple today) "Quota Totale" = toNum := by
  funext x; rfl

theorem netFun_stake (today : String) :
    netFun (normOps Kind.multiple today) "Stake" = stakeCoe := by
  funext x; rfl

theorem netFun_multipla (today : String) :
    netFun (normOps Kind.multiple today) "Multipla" = fillna (Cell.str "") := by
  funext x; rfl

/-- The values of any required non-ID column of `_normalize`'s output are, up
to the final id sort, exactly the input values of that column mapped through
the net coercion of the column. -/
theorem colVals_normalize_perm (kind : Kind) (today : String) (t : Table) (hwf : WF t)
    {d : String} (hd : d ∈ t.cols) (hne : d ≠ "ID") (hreq : d ∈ requiredCols kind) :
    (colVals (_normalize kind today t) d).Perm
      ((colVals t d).map (netFun (normOps kind today) d)) := by
  by_cases hempty : t.rows = [] ∨ t.cols = []
  · have hrows : t.rows = [] := by
      rcases hempty with h | h
      · exact h
      · rw [h] at hd; simp at hd
    have h1 : _normalize kind today t = { cols := requiredCols kind, rows := [] } :=
      (normalize_cols_total kind today t).2 hrows
    rw [h1]
    unfold colVals
    rw [hrows]
    simp
  · unfold _normalize
    rw [if_neg hempty]
    rcases ensureCols_props (requiredCols kind) t hwf with ⟨e1, e2, e3, e4, e5, e6⟩
    have step1 := colVals_sortById_perm
      (select (_ensure_ids (applyOps (ensureCols t (requiredCols kind)) (normOps kind today)))
        (requiredCols kind)) d
    have step2 : colVals
        (select (_ensure_ids (applyOps (ensureCols t (requiredCols kind)) (normOps kind today)))
          (requiredCols kind)) d
        = colVals (_ensure_ids (applyOps (ensureCols t (requiredCols kind)) (normOps kind today))) d :=
      colVals_select hreq
    have step3 : colVals (_ensure_ids (applyOps (ensureCols t (requiredCols kind)) (normOps kind today))) d
        = colVals (applyOps (ensureCols t (requiredCols kind)) (normOps kind today)) d :=
      colVals_ensure_ids_ne hne
    have step4 : colVals (applyOps (ensureCols t (requiredCols kind)) (normOps kind today)) d
        = (colVals (ensureCols t (requiredCols kind)) d).map (netFun (normOps kind today) d) :=
      colVals_applyOps _ _ e2 d (e3 d hd)
    have step5 := e6 d hd
    rw [step2, step3, step4, step5] at step1
    exact step1

/-! Claim C6: coercion of the enumerated fields. -/

/-- C6: for every row, `_normalize` coerces enumerated fields independently:
an empty or null outcome, or an outcome outside `{In attesa, Vinta, Persa}`,
becomes `In attesa` (Pending); for single wagers a league value outside the
fixed `LEAGUES` list becomes the fallback `Altro` (Other); values already in
the respective set are kept.  The output columns are the input columns mapped
cell-wise through these coercions (up to the final sort by id). -/
theorem enum_field_coercion (kind : Kind) (today : String) (t : Table) (hwf : WF t)
    (hesito : "Esito" ∈ t.cols) (hcamp : "Campionato" ∈ t.cols) :
    (∀ c : Cell, esitoCoe c = if c ∈ outcomeCells then c else Cell.str "In attesa") ∧
    esitoCoe (Cell.str "") = Cell.str "In attesa" ∧
    esitoCoe Cell.null = Cell.str "In attesa" ∧
    (colVals (_normalize kind today t) "Esito").Perm ((colVals t "Esito").map esitoCoe) ∧
    (∀ c : Cell, campionatoCoe c = if c ∈ leagueCells then c else Cell.str "Altro") ∧
    (colVals (_normalize Kind.singole today t) "Campionato").Perm
      ((colVals t "Campionato").map campionatoCoe) := by
  refine ⟨esitoCoe_spec, rfl, rfl, ?_, campionatoCoe_spec, ?_⟩
  · have h := colVals_normalize_perm kind today t hwf hesito (by decide)
      (by cases kind <;> simp [requiredCols, REQUIRED_COLUMNS_SINGOLE, REQUIRED_COLUMNS_MULTIPLE])
    rwa [netFun_esito] at h
  · have h := colVals_normalize_perm Kind.singole today t hwf hcamp (by decide)
      (by simp [requiredCols, REQUIRED_COLUMNS_SINGOLE])
    rwa [netFun_campionato] at h

/-! Claim C7: coercion of the numeric fields. -/

/-- C7: for every row, `_normalize` parses numeric fields without raising: a
`Quota` or `Quota Totale` value that fails to parse as a number becomes null,
while a `Stake` value that fails to parse becomes the numeric default `0`;
values that parse keep their numeric value.  The output columns are the input
columns mapped cell-wise through these coercions (up to the final sort by
id). -/
theorem numeric_field_coercion (today : String) (t : Table) (hwf : WF t)
    (hq : "Quota" ∈ t.cols) (hqt : "Quota Totale" ∈ t.cols) (hst : "Stake" ∈ t.cols) :
    (∀ s : String, parseNum s = none → toNum (Cell.str s) = Cell.null) ∧
    (∀ (s : String) (q : ℚ), parseNum s = some q → toNum (Cell.str s) = Cell.num q) ∧
    toNum Cell.null = Cell.null ∧
    (∀ s : String, parseNum s = none → stakeCoe (Cell.str s) = Cell.num 0) ∧
    stakeCoe Cell.null = Cell.num 0 ∧
    (colVals (_normalize Kind.singole today t) "Quota").Perm
      ((colVals t "Quota").map toNum) ∧
    (colVals (_normalize Kind.multiple today t) "Quota Totale").Perm
      ((colVals t "Quota Totale").map toNum) ∧
    (colVals (_normalize Kind.multiple today t) "Stake").Perm
      ((colVals t "Stake").map stakeCoe) := by
  refine ⟨?_, ?_, rfl, ?_, rfl, ?_, ?_, ?_⟩
  · intro s hs
    simp [toNum, hs]
  · intro s q hs
    simp [toNum, hs]
  · intro s hs
    simp [stakeCoe, toNum, hs, fillna]
  · have h := colVals_normalize_perm Kind.singole today t hwf hq (by decide)
      (by simp [requiredCols, REQUIRED_COLUMNS_SINGOLE])
    rwa [netFun_quota] at h
  · have h := colVals_normalize_perm Kind.multiple today t hwf hqt (by decide)
      (by simp [requiredCols, REQUIRED_COLUMNS_MULTIPLE])
    rwa [netFun_quota_totale] at h
  · have h := colVals_normalize_perm Kind.multiple today t hwf hst (by decide)
      (by simp [requiredCols, REQUIRED_COLUMNS_MULTIPLE])
    rwa [netFun_stake] at h

/-- Concrete input for the C6 witness: an unknown outcome and an unknown
league. -/
def Wc6 : Table := Table.mk ["Esito", "Campionato"] [[Cell.str "Boh", Cell.str "Serie Z"]]

/-- Witness for C6: the hypotheses hold at `Wc6` and the theorem applies. -/
theorem enum_field_coercion_witness :
    WF Wc6 ∧ "Esito" ∈ Wc6.cols ∧ "Campionato" ∈ Wc6.cols ∧
    (colVals (_normalize Kind.singole "2024-05-05" Wc6) "Esito").Perm
      ((colVals Wc6 "Esito").map esitoCoe) ∧
    (colVals (_normalize Kind.singole "2024-05-05" Wc6) "Campionato").Perm
      ((colVals Wc6 "Campionato").map campionatoCoe) :=
  ⟨by decide, by decide, by decide,
    (enum_field_coercion Kind.singole "2024-05-05" Wc6 (by decide) (by decide) (by decide)).2.2.2.1,
    (enum_field_coercion Kind.singole "2024-05-05" Wc6 (by decide) (by decide) (by decide)).2.2.2.2.2⟩

/-- Concrete input for the C7 witness: unparseable numeric fields. -/
def Wc7 : Table :=
  Table.mk ["Quota", "Quota Totale", "Stake"] [[Cell.str "abc", Cell.str "x2", Cell.str "?"]]

/-- Witness for C7: the hypotheses hold at `Wc7` and the theorem applies. -/
theorem numeric_field_coercion_witness :
    WF Wc7 ∧ "Quota" ∈ Wc7.cols ∧ "Quota Totale" ∈ Wc7.cols ∧ "Stake" ∈ Wc7.cols ∧
    (colVals (_normalize Kind.singole "2024-05-05" Wc7) "Quota").Perm
      ((colVals Wc7 "Quota").map toNum) ∧
    (colVals (_normalize Kind.multiple "2024-05-05" Wc7) "Stake").Perm
      ((colVals Wc7 "Stake").map stakeCoe) :=
  ⟨by decide, by decide, by decide, by decide,
    (numeric_field_coercion "2024-05-05" Wc7 (by decide) (by decide) (by decide)
      (by decide)).2.2.2.2.2.1,
    (numeric_field_coercion "2024-05-05" Wc7 (by decide) (by decide) (by decide)
      (by decide)).2.2.2.2.2.2.2⟩

/-! Arithmetic and list helpers for the id-reconciliation step. -/

theorem truncQ_intCast (n : ℤ) : truncQ ((n : ℤ) : ℚ) = n := by
  unfold truncQ
  rw [Rat.num_intCast, Rat.den_intCast]
  exact Int.tdiv_one n

theorem foldl_max_mem : ∀ (l : List ℚ) (a : ℚ), l.foldl max a ∈ a :: l
  | [], a => by simp
  | b :: l, a => by
    rw [List.foldl_cons]
    have := foldl_max_mem l (max a b)
    rcases List.mem_cons.1 this with h | h
    · rcases max_choice a b with h2 | h2 <;> rw [h, h2] <;> simp
    · simp [h]

theorem le_foldl_max : ∀ (l : List ℚ) (a : ℚ), a ≤ l.foldl max a
  | [], a => le_refl a
  | b :: l, a => le_trans (le_max_left a b) (le_foldl_max l (max a b))

theorem foldl_max_ge : ∀ (l : List ℚ) (a q : ℚ), q ∈ l → q ≤ l.foldl max a
  | [], _, q, hq => by simp at hq
  | b :: l, a, q, hq => by
    rcases List.mem_cons.1 hq with rfl | hq
    · exact le_trans (le_max_right a q) (le_foldl_max l (max a q))
    · exact foldl_max_ge l (max a b) q hq

theorem maxQ_mem {l : List ℚ} (h : l ≠ []) : maxQ l ∈ l := by
  cases l with
  | nil => exact absurd rfl h
  | cons a l =>
    have := foldl_max_mem l a
    simpa [maxQ] using this

theorem maxQ_ge {l : List ℚ} {q : ℚ} (hq : q ∈ l) : q ≤ maxQ l := by
  cases l with
  | nil => simp at hq
  | cons a l =>
    rcases List.mem_cons.1 hq with rfl | hq
    · exact le_foldl_max l q
    · exact foldl_max_ge l a q hq

theorem mem_numsOf {l : List Cell} {q : ℚ} : q ∈ numsOf l ↔ Cell.num q ∈ l := by
  unfold numsOf
  rw [List.mem_filterMap]
  constructor
  · rintro ⟨c, hc, hq⟩
    cases c <;> simp_all
  · intro h
    exact ⟨Cell.num q, h, rfl⟩

theorem count_numsOf : ∀ (l : List Cell) (q : ℚ),
    (numsOf l).count q = l.count (Cell.num q)
  | [], q => rfl
  | Cell.num p :: l, q => by
    rw [show numsOf (Cell.num p :: l) = p :: numsOf l from rfl]
    rw [List.count_cons, List.count_cons, count_numsOf l]
    congr 1
    by_cases h : p = q
    · simp [h]
    · have h2 : Cell.num p ≠ Cell.num q := by
        intro hc
        exact h (Cell.num.inj hc)
      simp [h, h2]
  | Cell.str s :: l, q => by
    rw [show numsOf (Cell.str s :: l) = numsOf l from rfl, count_numsOf l, List.count_cons]
    simp
  | Cell.null :: l, q => by
    rw [show numsOf (Cell.null :: l) = numsOf l from rfl, count_numsOf l, List.count_cons]
    simp

/-! The id assignment policy in the spec's words, and its relation to the
implementation. -/

/-- The spec's description of id reconciliation without duplicates: rows with
a numeric id keep it; id-less rows receive consecutive integers `next`,
`next + 1`, ... in row order. -/
def specFillIds : List Cell → ℤ → List Cell
  | [], _ => []
  | Cell.num q :: rest, next => Cell.num q :: specFillIds rest next
  | _ :: rest, next => Cell.num ((next : ℤ) : ℚ) :: specFillIds rest (next + 1)

theorem mem_fillMissing : ∀ {l : List Cell} {next : ℤ} {c : Cell},
    c ∈ fillMissing l next →
    (c ∈ l ∧ c ≠ Cell.null) ∨ ∃ k : ℤ, next ≤ k ∧ c = Cell.num ((k : ℤ) : ℚ)
  | [], next, c, hc => by simp [fillMissing] at hc
  | Cell.null :: l, next, c, hc => by
    rw [show fillMissing (Cell.null :: l) next
        = Cell.num ((next : ℤ) : ℚ) :: fillMissing l (next + 1) from rfl] at hc
    rcases List.mem_cons.1 hc with rfl | hc
    · exact Or.inr ⟨next, le_refl _, rfl⟩
    · rcases mem_fillMissing hc with ⟨h1, h2⟩ | ⟨k, hk, rfl⟩
      · exact Or.inl ⟨List.mem_cons_of_mem _ h1, h2⟩
      · exact Or.inr ⟨k, by omega, rfl⟩
  | Cell.num q :: l, next, c, hc => by
    rw [show fillMissing (Cell.num q :: l) next
        = Cell.num q :: fillMissing l next from rfl] at hc
    rcases List.mem_cons.1 hc with rfl | hc
    · exact Or.inl ⟨List.mem_cons_self _ _, by simp⟩
    · rcases mem_fillMissing hc with ⟨h1, h2⟩ | h
      · exact Or.inl ⟨List.mem_cons_of_mem _ h1, h2⟩
      · exact Or.inr h
  | Cell.str s :: l, next, c, hc => by
    rw [show fillMissing (Cell.str s :: l) next
        = Cell.str s :: fillMissing l next from rfl] at hc
    rcases List.mem_cons.1 hc with rfl | hc
    · exact Or.inl ⟨List.mem_cons_self _ _, by simp⟩
    · rcases mem_fillMissing hc with ⟨h1, h2⟩ | h
      · exact Or.inl ⟨List.mem_cons_of_mem _ h1, h2⟩
      · exact Or.inr h

theorem fillMissing_nodup : ∀ (l : List Cell) (next : ℤ),
    (∀ c ∈ l, c = Cell.null ∨ ∃ n : ℤ, c = Cell.num ((n : ℤ) : ℚ) ∧ n < next) →
    (numsOf l).Nodup →
    (fillMissing l next).Nodup
  | [], _, _, _ => List.nodup_nil
  | Cell.null :: l, next, hb, hnd => by
    rw [show fillMissing (Cell.null :: l) next
        = Cell.num ((next : ℤ) : ℚ) :: fillMissing l (next + 1) from rfl]
    refine List.Nodup.cons ?_ ?_
    · intro hmem
      rcases mem_fillMissing hmem with ⟨h1, _⟩ | ⟨k, hk, hkeq⟩
      · rcases hb _ (List.mem_cons_of_mem _ h1) with h | ⟨n, hn, hlt⟩
        · simp at h
        · have h3 : ((next : ℤ) : ℚ) = ((n : ℤ) : ℚ) := Cell.num.inj hn
          have h4 : next = n := by exact_mod_cast h3
          omega
      · have : (next : ℚ) = (k : ℚ) := Cell.num.inj hkeq
        have : next = k := by exact_mod_cast this
        omega
    · refine fillMissing_nodup l (next + 1) ?_ ?_
      · intro c hc
        rcases hb c (List.mem_cons_of_mem _ hc) with h | ⟨n, hn, hlt⟩
        · exact Or.inl h
        · exact Or.inr ⟨n, hn, by omega⟩
      · exact hnd
  | Cell.num q :: l, next, hb, hnd => by
    rw [show fillMissing (Cell.num q :: l) next
        = Cell.num q :: fillMissing l next from rfl]
    have hq : ∃ n : ℤ, q = ((n : ℤ) : ℚ) ∧ n < next := by
      rcases hb _ (List.mem_cons_self _ _) with h | ⟨n, hn, hlt⟩
      · simp at h
      · exact ⟨n, Cell.num.inj hn, hlt⟩
    have hnd' : (numsOf (Cell.num q :: l)) = q :: numsOf l := rfl
    rw [hnd'] at hnd
    refine List.Nodup.cons ?_ ?_
    · intro hmem
      rcases mem_fillMissing hmem with ⟨h1, _⟩ | ⟨k, hk, hkeq⟩
      · have : q ∈ numsOf l := mem_numsOf.2 h1
        exact (List.nodup_cons.1 hnd).1 this
      · rcases hq with ⟨n, rfl, hlt⟩
        have : (n : ℚ) = (k : ℚ) := Cell.num.inj hkeq
        have : n = k := by exact_mod_cast this
        omega
    · exact fillMissing_nodup l next (fun c hc => hb c (List.mem_cons_of_mem _ hc))
        (List.nodup_cons.1 hnd).2
  | Cell.str s :: l, next, hb, hnd => by
    rcases hb _ (List.mem_cons_self _ _) with h | ⟨n, hn, _⟩
    · simp at h
    · simp at hn

theorem fillMissing_eq_spec : ∀ (l : List Cell) (next : ℤ),
    (∀ c ∈ l, c = Cell.null ∨ ∃ n : ℤ, c = Cell.num ((n : ℤ) : ℚ)) →
    (fillMissing l next).map truncCell = specFillIds l next
  | [], _, _ => rfl
  | Cell.null :: l, next, hb => by
    rw [show fillMissing (Cell.null :: l) next
        = Cell.num ((next : ℤ) : ℚ) :: fillMissing l (next + 1) from rfl,
      show specFillIds (Cell.null :: l) next
        = Cell.num ((next : ℤ) : ℚ) :: specFillIds l (next + 1) from rfl,
      List.map_cons,
      fillMissing_eq_spec l (next + 1) (fun c hc => hb c (List.mem_cons_of_mem _ hc))]
    congr 1
    simp [truncCell, truncQ_intCast]
  | Cell.num q :: l, next, hb => by
    have hq : ∃ n : ℤ, q = ((n : ℤ) : ℚ) := by
      rcases hb _ (List.mem_cons_self _ _) with h | ⟨n, hn⟩
      · simp at h
      · exact ⟨n, Cell.num.inj hn⟩
    rw [show fillMissing (Cell.num q :: l) next = Cell.num q :: fillMissing l next from rfl,
      show specFillIds (Cell.num q :: l) next = Cell.num q :: specFillIds l next from rfl,
      List.map_cons,
      fillMissing_eq_spec l next (fun c hc => hb c (List.mem_cons_of_mem _ hc))]
    congr 1
    rcases hq with ⟨n, rfl⟩
    simp [truncCell, truncQ_intCast]
  | Cell.str s :: l, next, hb => by
    rcases hb _ (List.mem_cons_self _ _) with h | ⟨n, hn⟩
    · simp at h
    · simp at hn

/-! Branch characterizations of `_ensure_ids`. -/

theorem ensure_ids_dup (u : Table) (hwf : WF u) (hid : "ID" ∈ u.cols)
    (hdup : ∃ q : ℚ, 2 ≤ ((colVals u "ID").map toNum).count (Cell.num q)) :
    colVals (_ensure_ids u) "ID"
      = (List.range u.rows.length).map (fun i : ℕ => Cell.num ((i + 1 : ℕ) : ℚ)) ∧
    ∀ d, d ∈ u.cols → d ≠ "ID" → colVals (_ensure_ids u) d = colVals u d := by
  obtain ⟨q, hq⟩ := hdup
  have hlenp : ((colVals u "ID").map toNum).length = u.rows.length := by
    rw [List.length_map, colVals_length]
  have hrows : u.rows ≠ [] := by
    intro h
    have h0 : ((colVals u "ID").map toNum).length = 0 := by rw [hlenp, h]; rfl
    rw [List.length_eq_zero] at h0
    rw [h0] at hq
    simp at hq
  have hcols : u.cols ≠ [] := by
    intro h
    rw [h] at hid
    simp at hid
  have hguard : ¬(u.rows = [] ∨ u.cols = []) := by
    rintro (h | h)
    · exact hrows h
    · exact hcols h
  have hpids : colVals (mapCol u "ID" toNum) "ID" = (colVals u "ID").map toNum :=
    colVals_mapCol_self toNum hwf hid
  have hnncount : (numsOf ((colVals u "ID").map toNum)).count q
      = ((colVals u "ID").map toNum).count (Cell.num q) := count_numsOf _ _
  have hnodup : ¬ (numsOf ((colVals u "ID").map toNum)).Nodup := by
    intro hnd
    have := List.nodup_iff_count_le_one.1 hnd q
    omega
  have hne : numsOf ((colVals u "ID").map toNum) ≠ [] := by
    intro h
    rw [h] at hnncount
    simp at hnncount
    omega
  unfold _ensure_ids
  rw [if_neg hguard]
  dsimp only
  rw [hpids, if_pos ⟨hne, hnodup⟩]
  constructor
  · rw [colVals_setColList_self (WF_mapCol _ _ hwf) (by rw [cols_mapCol]; exact hid)
      (by simp), rows_length_mapCol]
  · intro d hd hdne
    rw [colVals_setColList_ne hdne (by simp), colVals_mapCol_ne toNum hdne]

theorem ensure_ids_fill (u : Table) (hwf : WF u) (hid : "ID" ∈ u.cols)
    (hrows : u.rows ≠ [])
    (hnodup : (numsOf ((colVals u "ID").map toNum)).Nodup) :
    colVals (_ensure_ids u) "ID"
      = (fillMissing ((colVals u "ID").map toNum)
          ((if numsOf ((colVals u "ID").map toNum) = [] then 0
            else truncQ (maxQ (numsOf ((colVals u "ID").map toNum)))) + 1)).map truncCell ∧
    ∀ d, d ∈ u.cols → d ≠ "ID" → colVals (_ensure_ids u) d = colVals u d := by
  have hcols : u.cols ≠ [] := by
    intro h
    rw [h] at hid
    simp at hid
  have hguard : ¬(u.rows = [] ∨ u.cols = []) := by
    rintro (h | h)
    · exact hrows h
    · exact hcols h
  have hpids : colVals (mapCol u "ID" toNum) "ID" = (colVals u "ID").map toNum :=
    colVals_mapCol_self toNum hwf hid
  have hcond : ¬(numsOf ((colVals u "ID").map toNum) ≠ []
      ∧ ¬ (numsOf ((colVals u "ID").map toNum)).Nodup) := by
    rintro ⟨h1, h2⟩
    exact h2 hnodup
  have hfill_len : ∀ next : ℤ,
      ((fillMissing ((colVals u "ID").map toNum) next).map truncCell).length
        = (mapCol u "ID" toNum).rows.length := by
    intro next
    rw [List.length_map, fillMissing_length, List.length_map, colVals_length,
      rows_length_mapCol]
  unfold _ensure_ids
  rw [if_neg hguard]
  dsimp only
  rw [hpids, if_neg hcond]
  constructor
  · rw [colVals_setColList_self (WF_mapCol _ _ hwf) (by rw [cols_mapCol]; exact hid)
      (hfill_len _)]
  · intro d hd hdne
    rw [colVals_setColList_ne hdne (hfill_len _), colVals_mapCol_ne toNum hdne]

/-! Sortedness of rows versus sortedness of the id column. -/

theorem sorted_rows_iff_pairwise {u : Table} :
    u.rows.Sorted (rowLe (colIdx u "ID")) ↔
      List.Pairwise (fun a b => cellKey a ≤ cellKey b) (colVals u "ID") := by
  unfold colVals List.Sorted
  rw [List.pairwise_map]
  rfl

theorem pairwise_cellKey_range (N : ℕ) :
    List.Pairwise (fun a b => cellKey a ≤ cellKey b)
      ((List.range N).map (fun i : ℕ => Cell.num ((i + 1 : ℕ) : ℚ))) := by
  rw [List.pairwise_map]
  apply List.Pairwise.imp ?_ (List.pairwise_lt_range N)
  intro i k hik
  show ((i + 1 : ℕ) : ℚ) ≤ ((k + 1 : ℕ) : ℚ)
  exact_mod_cast Nat.succ_le_succ (le_of_lt hik)

theorem id_mem_required (kind : Kind) : "ID" ∈ requiredCols kind := by
  cases kind <;> simp [requiredCols, REQUIRED_COLUMNS_SINGOLE, REQUIRED_COLUMNS_MULTIPLE]

theorem rows_ne_of_dup {t : Table}
    (hdup : ∃ q : ℚ, 2 ≤ ((colVals t "ID").map toNum).count (Cell.num q)) :
    t.rows ≠ [] := by
  obtain ⟨q, hq⟩ := hdup
  intro h
  have h0 : ((colVals t "ID").map toNum) = [] := by
    unfold colVals
    rw [h]
    rfl
  rw [h0] at hq
  simp at hq

/-! Claim C1: duplicate numeric ids force a dense renumbering `1..N` in row
order. -/

/-- C1: for every input table in which at least two rows carry the same
non-null numeric id, `_ensure_ids` (and hence `_normalize`) discards all
existing ids and assigns the dense sequence `1..N` to the `N` rows in their
current row order; all other columns are untouched.  (After the final sort
the ids `1..N` are already ascending, so `_normalize` keeps that row
order.) -/
theorem dup_ids_renumber (t : Table) (hwf : WF t) (hid : "ID" ∈ t.cols)
    (hdup : ∃ q : ℚ, 2 ≤ ((colVals t "ID").map toNum).count (Cell.num q)) :
    colVals (_ensure_ids t) "ID"
      = (List.range t.rows.length).map (fun i : ℕ => Cell.num ((i + 1 : ℕ) : ℚ)) ∧
    (∀ d, d ∈ t.cols → d ≠ "ID" → colVals (_ensure_ids t) d = colVals t d) ∧
    ∀ kind today, colVals (_normalize kind today t) "ID"
      = (List.range t.rows.length).map (fun i : ℕ => Cell.num ((i + 1 : ℕ) : ℚ)) := by
  rcases ensure_ids_dup t hwf hid hdup with ⟨h1, h2⟩
  refine ⟨h1, h2, ?_⟩
  intro kind today
  have hrows : t.rows ≠ [] := rows_ne_of_dup hdup
  have hcols : t.cols ≠ [] := by
    intro h
    rw [h] at hid
    simp at hid
  have hguard : ¬(t.rows = [] ∨ t.cols = []) := by
    rintro (h | h)
    · exact hrows h
    · exact hcols h
  rcases ensureCols_props (requiredCols kind) t hwf with ⟨e1, e2, e3, e4, e5, e6⟩
  unfold _normalize
  rw [if_neg hguard]
  set stage := applyOps (ensureCols t (requiredCols kind)) (normOps kind today) with hstage
  have hwfs : WF stage := WF_applyOps _ _ e2
  have hids_stage : colVals stage "ID" = colVals t "ID" := by
    rw [hstage, colVals_applyOps _ _ e2 _ (e3 _ hid), netFun_id, List.map_id, e6 _ hid]
  have hid_stage : "ID" ∈ stage.cols := by
    rw [hstage, cols_applyOps]
    exact e3 _ hid
  have hdup_stage : ∃ q : ℚ, 2 ≤ ((colVals stage "ID").map toNum).count (Cell.num q) := by
    rw [hids_stage]
    exact hdup
  rcases ensure_ids_dup stage hwfs hid_stage hdup_stage with ⟨g1, g2⟩
  have hlen_stage : stage.rows.length = t.rows.length := by
    rw [hstage, rows_length_applyOps, e1]
  set v := select (_ensure_ids stage) (requiredCols kind) with hv
  have hvids : colVals v "ID"
      = (List.range t.rows.length).map (fun i : ℕ => Cell.num ((i + 1 : ℕ) : ℚ)) := by
    rw [hv, colVals_select (id_mem_required kind), g1, hlen_stage]
  have hsorted : v.rows.Sorted (rowLe (colIdx v "ID")) :=
    sorted_rows_iff_pairwise.2 (hvids ▸ pairwise_cellKey_range t.rows.length)
  rw [sortById_eq_self hsorted]
  exact hvids

/-- Concrete input for the C1 witness: two rows with the same numeric id. -/
def Wc1 : Table :=
  Table.mk ["ID", "Note"]
    [[Cell.str "3", Cell.str "a"], [Cell.str "3", Cell.str "b"], [Cell.str "", Cell.str "c"]]

/-- Witness for C1: the hypotheses hold at `Wc1` and the theorem applies. -/
theorem dup_ids_renumber_witness :
    WF Wc1 ∧ "ID" ∈ Wc1.cols ∧
    2 ≤ ((colVals Wc1 "ID").map toNum).count (Cell.num 3) ∧
    colVals (_ensure_ids Wc1) "ID"
      = (List.range Wc1.rows.length).map (fun i : ℕ => Cell.num ((i + 1 : ℕ) : ℚ)) :=
  ⟨by decide, by decide, of_decide_eq_true (by with_unfolding_all rfl),
    (dup_ids_renumber Wc1 (by decide) (by decide)
      ⟨3, of_decide_eq_true (by with_unfolding_all rfl)⟩).1⟩

/-! Claim C2: reconciliation of partially missing ids. -/

/-- C2 fails as stated: `_ensure_ids` ends with `.astype(int)`, which
truncates a non-integer numeric id toward zero instead of leaving it
unchanged, and the fresh ids continue from the truncated maximum.  Here the
only numeric id parses to `2.5`; the claim says it is left unchanged and the
missing id becomes `max + 1 = 3.5`, but the code produces `2` and `3`. -/
theorem fill_missing_ids_cex :
    toNum (Cell.str "2.5") = Cell.num (5 / 2) ∧
    colVals (_ensure_ids (Table.mk ["ID"] [[Cell.str "2.5"], [Cell.str ""]])) "ID"
      = [Cell.num 2, Cell.num 3] ∧
    (5 : ℚ) / 2 ≠ 2 ∧ (5 : ℚ) / 2 + 1 ≠ 3 :=
  of_decide_eq_true (by with_unfolding_all rfl)

/-- C2 (amended): for every input table in which the rows with numeric ids
have pairwise-distinct ids that are all integers, and at least one row has a
missing or non-numeric id, `_ensure_ids` leaves the existing integer ids
unchanged and assigns to the id-less rows, in row order, strictly increasing
integers starting at `max(existing id) + 1` (starting at `1` if no row has a
numeric id), exactly as described by `specFillIds`; all other columns are
untouched, and up to the final sort `_normalize` produces the same ids.
(The amendment restricts the existing ids to integers: the code truncates
non-integer ids, see the counterexample.) -/
theorem fill_missing_ids (t : Table) (hwf : WF t) (hid : "ID" ∈ t.cols)
    (hints : ∀ c ∈ (colVals t "ID").map toNum,
      c = Cell.null ∨ ∃ n : ℤ, c = Cell.num ((n : ℤ) : ℚ))
    (hnodup : (numsOf ((colVals t "ID").map toNum)).Nodup)
    (hmiss : Cell.null ∈ (colVals t "ID").map toNum)
    (M : ℤ)
    (hM : (numsOf ((colVals t "ID").map toNum) = [] ∧ M = 0) ∨
          (((M : ℤ) : ℚ) ∈ numsOf ((colVals t "ID").map toNum) ∧
            ∀ q ∈ numsOf ((colVals t "ID").map toNum), q ≤ ((M : ℤ) : ℚ))) :
    colVals (_ensure_ids t) "ID" = specFillIds ((colVals t "ID").map toNum) (M + 1) ∧
    (∀ d, d ∈ t.cols → d ≠ "ID" → colVals (_ensure_ids t) d = colVals t d) ∧
    ∀ kind today, (colVals (_normalize kind today t) "ID").Perm
      (specFillIds ((colVals t "ID").map toNum) (M + 1)) := by
  have hrows : t.rows ≠ [] := by
    intro h
    have : (colVals t "ID").map toNum = [] := by
      unfold colVals
      rw [h]
      rfl
    rw [this] at hmiss
    simp at hmiss
  have hmaxeq : ∀ u : Table, colVals u "ID" = colVals t "ID" →
      (if numsOf ((colVals u "ID").map toNum) = [] then 0
        else truncQ (maxQ (numsOf ((colVals u "ID").map toNum)))) = M := by
    intro u hu
    rw [hu]
    rcases hM with ⟨hnil, hM0⟩ | ⟨hmem, hub⟩
    · rw [if_pos hnil, hM0]
    · have hne : numsOf ((colVals t "ID").map toNum) ≠ [] := List.ne_nil_of_mem hmem
      rw [if_neg hne]
      have hmm := maxQ_mem hne
      have hge := maxQ_ge hmem
      have hle := hub _ hmm
      rw [le_antisymm hle hge, truncQ_intCast]
  rcases ensure_ids_fill t hwf hid hrows hnodup with ⟨h1, h2⟩
  refine ⟨?_, h2, ?_⟩
  · rw [h1, hmaxeq t rfl]
    exact fillMissing_eq_spec _ _ hints
  · intro kind today
    have hcols : t.cols ≠ [] := by
      intro h
      rw [h] at hid
      simp at hid
    have hguard : ¬(t.rows = [] ∨ t.cols = []) := by
      rintro (h | h)
      · exact hrows h
      · exact hcols h
    rcases ensureCols_props (requiredCols kind) t hwf with ⟨e1, e2, e3, e4, e5, e6⟩
    unfold _normalize
    rw [if_neg hguard]
    set stage := applyOps (ensureCols t (requiredCols kind)) (normOps kind today) with hstage
    have hwfs : WF stage := WF_applyOps _ _ e2
    have hids_stage : colVals stage "ID" = colVals t "ID" := by
      rw [hstage, colVals_applyOps _ _ e2 _ (e3 _ hid), netFun_id, List.map_id, e6 _ hid]
    have hid_stage : "ID" ∈ stage.cols := by
      rw [hstage, cols_applyOps]
      exact e3 _ hid
    have hrows_stage : stage.rows ≠ [] := by
      intro h
      have := rows_length_applyOps (normOps kind today) (ensureCols t (requiredCols kind))
      rw [← hstage, h, e1] at this
      exact hrows (List.length_eq_zero.1 this.symm)
    rcases ensure_ids_fill stage hwfs hid_stage hrows_stage
      (by rw [hids_stage]; exact hnodup) with ⟨g1, g2⟩
    have step1 := colVals_sortById_perm (select (_ensure_ids stage) (requiredCols kind)) "ID"
    rw [colVals_select (id_mem_required kind), g1, hids_stage,
      hmaxeq t rfl] at step1
    rw [fillMissing_eq_spec _ _ hints] at step1
    exact step1

/-- Concrete input for the C2 witness. -/
def Wc2 : Table :=
  Table.mk ["ID", "Note"]
    [[Cell.str "5", Cell.str "a"], [Cell.str "", Cell.str "b"], [Cell.str "x", Cell.str "c"]]

/-- Witness for C2 at `Wc2`: existing id `5` is kept, the two id-less rows
get `6` and `7`. -/
theorem fill_missing_ids_witness :
    colVals (_ensure_ids Wc2) "ID" = specFillIds ((colVals Wc2 "ID").map toNum) (5 + 1) := by
  have hpids : (colVals Wc2 "ID").map toNum = [Cell.num 5, Cell.null, Cell.null] :=
    of_decide_eq_true (by with_unfolding_all rfl)
  have hnums : numsOf ((colVals Wc2 "ID").map toNum) = [(5 : ℚ)] := by
    rw [hpids]
    rfl
  refine (fill_missing_ids Wc2 (by decide) (by decide) ?_ ?_ ?_ 5 ?_).1
  · rw [hpids]
    intro c hc
    rcases List.mem_cons.1 hc with rfl | hc
    · exact Or.inr ⟨5, by norm_num⟩
    · rcases List.mem_cons.1 hc with rfl | hc
      · exact Or.inl rfl
      · rcases List.mem_cons.1 hc with rfl | hc
        · exact Or.inl rfl
        · simp at hc
  · rw [hnums]
    exact List.nodup_singleton _
  · rw [hpids]
    simp
  · right
    rw [hnums]
    constructor
    · simp only [List.mem_singleton]
      norm_num
    · intro q hq
      rw [List.mem_singleton] at hq
      rw [hq]
      norm_num

/-! Claim C5: invariants of the output ids. -/

theorem specFillIds_eq_fillMissing : ∀ (l : List Cell) (next : ℤ),
    (∀ c ∈ l, c = Cell.null ∨ ∃ q : ℚ, c = Cell.num q) →
    specFillIds l next = fillMissing l next
  | [], _, _ => rfl
  | Cell.null :: l, next, hb => by
    rw [show specFillIds (Cell.null :: l) next
        = Cell.num ((next : ℤ) : ℚ) :: specFillIds l (next + 1) from rfl,
      show fillMissing (Cell.null :: l) next
        = Cell.num ((next : ℤ) : ℚ) :: fillMissing l (next + 1) from rfl,
      specFillIds_eq_fillMissing l (next + 1) (fun c hc => hb c (List.mem_cons_of_mem _ hc))]
  | Cell.num q :: l, next, hb => by
    rw [show specFillIds (Cell.num q :: l) next = Cell.num q :: specFillIds l next from rfl,
      show fillMissing (Cell.num q :: l) next = Cell.num q :: fillMissing l next from rfl,
      specFillIds_eq_fillMissing l next (fun c hc => hb c (List.mem_cons_of_mem _ hc))]
  | Cell.str s :: l, next, hb => by
    rcases hb _ (List.mem_cons_self _ _) with h | ⟨q, hq⟩
    · simp at h
    · simp at hq

/-- Concrete input for the C5 counterexample: two identical rows whose ids
parse to `0.5` and `0.4`, which `.astype(int)` truncates to the duplicate,
non-positive ids `0` and `0`. -/
def Zc5 : Table :=
  Table.mk ["ID", "Data", "Campionato", "Partita", "Mercato", "Quota", "Esito", "Note"]
    [[Cell.str "0.5", Cell.str "2024-02-02", Cell.str "Serie B", Cell.str "p", Cell.str "m",
      Cell.str "1.7", Cell.str "Persa", Cell.str "n"],
     [Cell.str "0.4", Cell.str "2024-02-02", Cell.str "Serie B", Cell.str "p", Cell.str "m",
      Cell.str "1.7", Cell.str "Persa", Cell.str "n"]]

/-- C5 fails as stated: on `Zc5` the output ids are `0, 0` — neither positive
nor pairwise distinct. -/
theorem ids_invariant_cex :
    colVals (_normalize Kind.singole "2024-05-05" Zc5) "ID" = [Cell.num 0, Cell.num 0] ∧
    ¬ (colVals (_normalize Kind.singole "2024-05-05" Zc5) "ID").Nodup ∧
    ¬ ∀ c ∈ colVals (_normalize Kind.singole "2024-05-05" Zc5) "ID",
        ∃ n : ℤ, 0 < n ∧ c = Cell.num ((n : ℤ) : ℚ) := by
  refine ⟨of_decide_eq_true (by with_unfolding_all rfl),
    of_decide_eq_true (by with_unfolding_all rfl), ?_⟩
  intro h
  rcases h (Cell.num 0) (by
    rw [show colVals (_normalize Kind.singole "2024-05-05" Zc5) "ID"
        = [Cell.num 0, Cell.num 0] from of_decide_eq_true (by with_unfolding_all rfl)]
    simp) with ⟨n, hn, heq⟩
  have : ((n : ℤ) : ℚ) = 0 := (Cell.num.inj heq).symm
  have : n = 0 := by exact_mod_cast this
  omega

/-- C5 (amended): for every raw input table whose id values each either fail
to parse as a number or parse to a positive integer, the output of
`_normalize` has ids that are positive integers, pairwise distinct, and the
rows are ordered by id ascending.  (Without the positive-integer restriction
the claim fails: non-integer ids are truncated and can collide or become
non-positive, see the counterexample.)  The hypothesis is stated on the id
column after the canonical columns are ensured, so it also covers tables
with no id column at all. -/
theorem ids_invariant (kind : Kind) (today : String) (t : Table) (hwf : WF t)
    (hpos : ∀ c ∈ (colVals (ensureCols t (requiredCols kind)) "ID").map toNum,
      c = Cell.null ∨ ∃ n : ℤ, 0 < n ∧ c = Cell.num ((n : ℤ) : ℚ)) :
    (∀ c ∈ colVals (_normalize kind today t) "ID",
      ∃ n : ℤ, 0 < n ∧ c = Cell.num ((n : ℤ) : ℚ)) ∧
    (colVals (_normalize kind today t) "ID").Nodup ∧
    List.Pairwise (fun a b => cellKey a ≤ cellKey b)
      (colVals (_normalize kind today t) "ID") := by
  by_cases hguard : t.rows = [] ∨ t.cols = []
  · have h1 : _normalize kind today t = { cols := requiredCols kind, rows := [] } := by
      unfold _normalize
      rw [if_pos hguard]
    rw [h1]
    refine ⟨?_, ?_, ?_⟩ <;> simp [colVals]
  · rcases ensureCols_props (requiredCols kind) t hwf with ⟨e1, e2, e3, e4, e5, e6⟩
    have hrows : t.rows ≠ [] := fun h => hguard (Or.inl h)
    unfold _normalize
    rw [if_neg hguard]
    set te := ensureCols t (requiredCols kind) with hte
    set stage := applyOps te (normOps kind today) with hstage
    have hwfs : WF stage := WF_applyOps _ _ e2
    have hidte : "ID" ∈ te.cols := e4 _ (id_mem_required kind)
    have hids_stage : colVals stage "ID" = colVals te "ID" := by
      rw [hstage, colVals_applyOps _ _ e2 _ hidte, netFun_id, List.map_id]
    have hid_stage : "ID" ∈ stage.cols := by
      rw [hstage, cols_applyOps]
      exact hidte
    have hlen_stage : stage.rows.length = t.rows.length := by
      rw [hstage, rows_length_applyOps, e1]
    have hrows_stage : stage.rows ≠ [] := by
      intro h
      rw [h] at hlen_stage
      exact hrows (List.length_eq_zero.1 hlen_stage.symm)
    have hpos' : ∀ c ∈ (colVals stage "ID").map toNum,
        c = Cell.null ∨ ∃ n : ℤ, 0 < n ∧ c = Cell.num ((n : ℤ) : ℚ) := by
      rw [hids_stage]
      exact hpos
    have main : (∀ c ∈ colVals (_ensure_ids stage) "ID",
        ∃ n : ℤ, 0 < n ∧ c = Cell.num ((n : ℤ) : ℚ)) ∧
        (colVals (_ensure_ids stage) "ID").Nodup := by
      by_cases hnd : (numsOf ((colVals stage "ID").map toNum)).Nodup
      · rcases ensure_ids_fill stage hwfs hid_stage hrows_stage hnd with ⟨g1, g2⟩
        set pids := (colVals stage "ID").map toNum with hpidsdef
        set maxId : ℤ := (if numsOf pids = [] then 0 else truncQ (maxQ (numsOf pids)))
          with hmax
        have hmaxQ_int : numsOf pids ≠ [] →
            ∃ m : ℤ, 0 < m ∧ maxQ (numsOf pids) = ((m : ℤ) : ℚ) := by
          intro hne
          rcases hpos' (Cell.num (maxQ (numsOf pids))) (mem_numsOf.1 (maxQ_mem hne))
            with h | ⟨m, hm, heq⟩
          · simp at h
          · exact ⟨m, hm, Cell.num.inj heq⟩
        have hmax_ge : ∀ q ∈ numsOf pids, q ≤ ((maxId : ℤ) : ℚ) := by
          intro q hq
          have hne : numsOf pids ≠ [] := List.ne_nil_of_mem hq
          rcases hmaxQ_int hne with ⟨m, hm, hmeq⟩
          rw [hmax, if_neg hne, hmeq, truncQ_intCast]
          calc q ≤ maxQ (numsOf pids) := maxQ_ge hq
            _ = ((m : ℤ) : ℚ) := hmeq
        have hmax_nonneg : 0 ≤ maxId := by
          rw [hmax]
          by_cases hne : numsOf pids = []
          · rw [if_pos hne]
          · rw [if_neg hne]
            rcases hmaxQ_int hne with ⟨m, hm, hmeq⟩
            rw [hmeq, truncQ_intCast]
            omega
        have hints : ∀ c ∈ pids, c = Cell.null ∨ ∃ n : ℤ, c = Cell.num ((n : ℤ) : ℚ) :=
          fun c hc => (hpos' c hc).imp id (fun h => ⟨h.choose, h.choose_spec.2⟩)
        have hfill_fix : (fillMissing pids (maxId + 1)).map truncCell
            = fillMissing pids (maxId + 1) := by
          rw [fillMissing_eq_spec _ _ hints,
            specFillIds_eq_fillMissing _ _
              (fun c hc => (hints c hc).imp id (fun h => ⟨((h.choose : ℤ) : ℚ), h.choose_spec⟩))]
        constructor
        · intro c hc
          rw [g1, hfill_fix] at hc
          rcases mem_fillMissing hc with ⟨h1, h2⟩ | ⟨k, hk, rfl⟩
          · rcases hpos' _ h1 with h | hgood
            · exact absurd h h2
            · exact hgood
          · exact ⟨k, by omega, rfl⟩
        · rw [g1, hfill_fix]
          apply fillMissing_nodup _ _ ?_ hnd
          intro c hc
          rcases hpos' c hc with h | ⟨n, hn, heq⟩
          · exact Or.inl h
          · refine Or.inr ⟨n, heq, ?_⟩
            have hmem : ((n : ℤ) : ℚ) ∈ numsOf pids := mem_numsOf.2 (heq ▸ hc)
            have := hmax_ge _ hmem
            have hnle : n ≤ maxId := by exact_mod_cast this
            omega
      · have hdup : ∃ q : ℚ, 2 ≤ ((colVals stage "ID").map toNum).count (Cell.num q) := by
          rw [List.nodup_iff_count_le_one] at hnd
          push_neg at hnd
          rcases hnd with ⟨q, hq⟩
          refine ⟨q, ?_⟩
          rw [← count_numsOf]
          omega
        rcases ensure_ids_dup stage hwfs hid_stage hdup with ⟨g1, g2⟩
        rw [g1]
        constructor
        · intro c hc
          rw [List.mem_map] at hc
          rcases hc with ⟨i, hi, rfl⟩
          refine ⟨(i + 1 : ℕ), by omega, ?_⟩
          norm_cast
        · refine List.Nodup.map ?_ (List.nodup_range _)
          intro a b hab
          have := Cell.num.inj hab
          have : (a + 1 : ℕ) = (b + 1 : ℕ) := by exact_mod_cast this
          omega
    set v := select (_ensure_ids stage) (requiredCols kind) with hv
    have hvids : colVals v "ID" = colVals (_ensure_ids stage) "ID" :=
      colVals_select (id_mem_required kind)
    have hperm : (colVals (sortById v) "ID").Perm (colVals v "ID") :=
      colVals_sortById_perm v "ID"
    refine ⟨?_, ?_, ?_⟩
    · intro c hc
      exact main.1 c (hvids ▸ hperm.mem_iff.1 hc)
    · exact hperm.nodup_iff.2 (hvids ▸ main.2)
    · exact sorted_rows_iff_pairwise.1 (sorted_sortById v)

/-- Concrete input for the C5 witness. -/
def Wc5 : Table := Table.mk ["ID", "Quota"] [[Cell.str "2", Cell.str "1.5"], [Cell.str "", Cell.str "2.0"]]

/-- Witness for C5 at `Wc5`: ids `2` and blank give distinct output ids. -/
theorem ids_invariant_witness :
    (colVals (_normalize Kind.singole "2024-05-05" Wc5) "ID").Nodup ∧
    List.Pairwise (fun a b => cellKey a ≤ cellKey b)
      (colVals (_normalize Kind.singole "2024-05-05" Wc5) "ID") := by
  have hids : (colVals (ensureCols Wc5 (requiredCols Kind.singole)) "ID").map toNum
      = [Cell.num 2, Cell.null] := of_decide_eq_true (by with_unfolding_all rfl)
  have h := ids_invariant Kind.singole "2024-05-05" Wc5 (by decide) ?hp
  · exact ⟨h.2.1, h.2.2⟩
  case hp =>
    rw [hids]
    intro c hc
    rcases List.mem_cons.1 hc with rfl | hc
    · exact Or.inr ⟨2, by norm_num, congrArg Cell.num (by norm_num)⟩
    · rcases List.mem_cons.1 hc with rfl | hc
      · exact Or.inl rfl
      · simp at hc

/-! Canonical form: the shape of a table produced by `_normalize`.  The spec's
data-model invariants (§3) for one record kind. -/

/-- The cell holds an integer value (an int64 id). -/
def isIntCell : Cell → Bool
  | Cell.num q => q.den == 1
  | _ => false

/-- The cell is numeric or null (a parsed odds column). -/
def isNumOrNull : Cell → Bool
  | Cell.num _ => true
  | Cell.null => true
  | _ => false

/-- The cell is numeric (a parsed stake column, default-filled). -/
def isNumCell : Cell → Bool
  | Cell.num _ => true
  | _ => false

/-- The cell is not null (a default-filled text column). -/
def notNull : Cell → Bool
  | Cell.null => false
  | _ => true

theorem isIntCell_iff {c : Cell} : isIntCell c = true ↔ ∃ n : ℤ, c = Cell.num ((n : ℤ) : ℚ) := by
  cases c with
  | num q =>
    simp only [isIntCell, beq_iff_eq]
    constructor
    · intro h
      refine ⟨q.num, ?_⟩
      congr 1
      exact ((Rat.den_eq_one_iff q).1 h).symm
    · rintro ⟨n, hn⟩
      have : q = ((n : ℤ) : ℚ) := Cell.num.inj hn
      rw [this, Rat.den_intCast]
  | str s => simp [isIntCell]
  | null => simp [isIntCell]

/-- Canonical form except for id uniqueness: exactly the canonical columns,
rectangular shape, integer ids sorted ascending, enumerated and text fields
default-filled, numeric fields parsed. -/
def CanonicalW (kind : Kind) (t : Table) : Prop :=
  t.cols = requiredCols kind ∧ WF t ∧
  (∀ c ∈ colVals t "ID", isIntCell c = true) ∧
  List.Pairwise (fun a b => cellKey a ≤ cellKey b) (colVals t "ID") ∧
  (∀ c ∈ colVals t "Esito", c ∈ outcomeCells) ∧
  (∀ c ∈ colVals t "Data", notNull c = true ∧ isBlankCell c = false) ∧
  (∀ c ∈ colVals t "Note", notNull c = true) ∧
  (match kind with
   | Kind.singole =>
     (∀ c ∈ colVals t "Quota", isNumOrNull c = true) ∧
     (∀ c ∈ colVals t "Campionato", c ∈ leagueCells) ∧
     (∀ c ∈ colVals t "Partita", notNull c = true) ∧
     (∀ c ∈ colVals t "Mercato", notNull c = true)
   | Kind.multiple =>
     (∀ c ∈ colVals t "Quota Totale", isNumOrNull c = true) ∧
     (∀ c ∈ colVals t "Stake", isNumCell c = true) ∧
     (∀ c ∈ colVals t "Multipla", notNull c = true))

/-- Canonical form: `CanonicalW` plus the spec's id-uniqueness invariant. -/
def Canonical (kind : Kind) (t : Table) : Prop :=
  CanonicalW kind t ∧ (colVals t "ID").Nodup

/-! Fixpoint lemmas: `_normalize` does not change a canonical table. -/

theorem ensureCols_eq_self : ∀ (req : List String) (t : Table),
    (∀ c ∈ req, c ∈ t.cols) → ensureCols t req = t
  | [], t, _ => rfl
  | c :: req, t, h => by
    have hc : c ∈ t.cols := h c (List.mem_cons_self _ _)
    have hstep : ensureCols t (c :: req) = ensureCols t req := by
      unfold ensureCols
      simp only [List.foldl_cons, if_pos hc]
    rw [hstep]
    exact ensureCols_eq_self req t (fun d hd => h d (List.mem_cons_of_mem _ hd))

theorem applyOps_eq_self : ∀ (ops : List (String × (Cell → Cell))) (t : Table), WF t →
    (∀ p ∈ ops, ∀ v ∈ colVals t p.1, p.2 v = v) → applyOps t ops = t
  | [], _, _, _ => rfl
  | (c, f) :: ops, t, hwf, h => by
    have hfix : mapCol t c f = t :=
      mapCol_eq_self hwf (h (c, f) (List.mem_cons_self _ _))
    rw [show applyOps t ((c, f) :: ops) = applyOps (mapCol t c f) ops from rfl, hfix]
    exact applyOps_eq_self ops t hwf (fun p hp => h p (List.mem_cons_of_mem _ hp))

theorem fillMissing_eq_self : ∀ (l : List Cell) (next : ℤ),
    (∀ c ∈ l, isNumCell c = true) → fillMissing l next = l
  | [], _, _ => rfl
  | Cell.num q :: l, next, h => by
    rw [show fillMissing (Cell.num q :: l) next = Cell.num q :: fillMissing l next from rfl,
      fillMissing_eq_self l next (fun c hc => h c (List.mem_cons_of_mem _ hc))]
  | Cell.null :: l, next, h => by
    have := h _ (List.mem_cons_self _ _)
    simp [isNumCell] at this
  | Cell.str s :: l, next, h => by
    have := h _ (List.mem_cons_self _ _)
    simp [isNumCell] at this

theorem numsOf_nodup_of_cells : ∀ {l : List Cell},
    (∀ c ∈ l, isNumCell c = true) → l.Nodup → (numsOf l).Nodup
  | [], _, _ => List.nodup_nil
  | Cell.num q :: l, h, hnd => by
    rw [show numsOf (Cell.num q :: l) = q :: numsOf l from rfl]
    refine List.Nodup.cons ?_ (numsOf_nodup_of_cells
      (fun c hc => h c (List.mem_cons_of_mem _ hc)) (List.nodup_cons.1 hnd).2)
    intro hq
    exact (List.nodup_cons.1 hnd).1 (mem_numsOf.1 hq)
  | Cell.str s :: l, h, hnd => by
    have := h _ (List.mem_cons_self _ _)
    simp [isNumCell] at this
  | Cell.null :: l, h, hnd => by
    have := h _ (List.mem_cons_self _ _)
    simp [isNumCell] at this

theorem select_row : ∀ (cols : List String) (r : Row), cols.Nodup → r.length = cols.length →
    cols.map (fun c => getCell r (cols.findIdx? (fun d => d == c))) = r
  | [], [], _, _ => rfl
  | [], r :: rs, _, hlen => by simp at hlen
  | c :: cols, [], _, hlen => by simp at hlen
  | c :: cols, a :: ra, hnd, hlen => by
    have hlen' : ra.length = cols.length := by simpa using hlen
    have hnotmem : c ∉ cols := (List.nodup_cons.1 hnd).1
    rw [List.map_cons]
    congr 1
    · rw [List.findIdx?_cons]
      simp only [beq_self_eq_true, cond_true]
      rfl
    · have hcongr : ∀ d ∈ cols,
          getCell (a :: ra) ((c :: cols).findIdx? (fun e => e == d))
            = getCell ra (cols.findIdx? (fun e => e == d)) := by
        intro d hd
        have hdc : (c == d) = false := by
          simp only [beq_eq_false_iff_ne, ne_eq]
          rintro rfl
          exact hnotmem hd
        rw [List.findIdx?_cons, hdc]
        simp only [cond_false, List.findIdx?_succ]
        cases hfi : cols.findIdx? (fun e => e == d) with
        | none => rfl
        | some j => rfl
      calc List.map (fun d => getCell (a :: ra) ((c :: cols).findIdx? (fun e => e == d))) cols
          = List.map (fun d => getCell ra (cols.findIdx? (fun e => e == d))) cols :=
            List.map_congr_left hcongr
        _ = ra := select_row cols ra (List.nodup_cons.1 hnd).2 hlen'

theorem select_eq_self {t : Table} {req : List String} (hcols : t.cols = req)
    (hnd : req.Nodup) (hwf : WF t) : select t req = t := by
  subst hcols
  cases t with
  | mk cols rows =>
    unfold select
    simp only [Table.mk.injEq, true_and]
    have : ∀ r ∈ rows, cols.map (fun c => getCell r (colIdx (Table.mk cols rows) c)) = r := by
      intro r hr
      exact select_row cols r hnd (hwf r hr)
    calc List.map (fun r => cols.map (fun c => getCell r (colIdx (Table.mk cols rows) c))) rows
        = List.map id rows := List.map_congr_left this
      _ = rows := List.map_id rows

theorem fillna_of_notNull {v c : Cell} (h : notNull c = true) : fillna v c = c := by
  cases c <;> simp [notNull] at h ⊢ <;> rfl

theorem toNum_of_numOrNull {c : Cell} (h : isNumOrNull c = true) : toNum c = c := by
  cases c <;> simp [isNumOrNull] at h ⊢ <;> rfl

theorem ensure_ids_eq_self {t : Table} (hwf : WF t)
    (hint : ∀ c ∈ colVals t "ID", isIntCell c = true)
    (hnd : (colVals t "ID").Nodup) :
    _ensure_ids t = t := by
  by_cases hguard : t.rows = [] ∨ t.cols = []
  · unfold _ensure_ids
    rw [if_pos hguard]
  · have hnums : ∀ c ∈ colVals t "ID", isNumCell c = true := by
      intro c hc
      rcases isIntCell_iff.1 (hint c hc) with ⟨n, rfl⟩
      rfl
    have hidfix : ∀ v ∈ colVals t "ID", toNum v = v := by
      intro v hv
      rcases isIntCell_iff.1 (hint v hv) with ⟨n, rfl⟩
      rfl
    have ht1 : mapCol t "ID" toNum = t := mapCol_eq_self hwf hidfix
    have hnnd : (numsOf (colVals t "ID")).Nodup := numsOf_nodup_of_cells hnums hnd
    have htr : (colVals t "ID").map truncCell = colVals t "ID" := by
      have hcongr : ∀ c ∈ colVals t "ID", truncCell c = id c := by
        intro c hc
        rcases isIntCell_iff.1 (hint c hc) with ⟨n, rfl⟩
        simp [truncCell, truncQ_intCast]
      rw [List.map_congr_left hcongr, List.map_id]
    unfold _ensure_ids
    rw [if_neg hguard]
    dsimp only
    rw [ht1, if_neg (by rintro ⟨h1, h2⟩; exact h2 hnnd), fillMissing_eq_self _ _ hnums, htr]
    exact setColList_own hwf

theorem required_nodup (kind : Kind) : (requiredCols kind).Nodup := by
  cases kind <;> decide

theorem required_ne_nil (kind : Kind) : requiredCols kind ≠ [] := by
  cases kind <;> decide

theorem normalize_fix (kind : Kind) (today : String) {t : Table}
    (h : Canonical kind t) : _normalize kind today t = t := by
  obtain ⟨⟨hcols, hwf, hint, hsorted, hesito, hdata, hnote, hkind⟩, hnd⟩ := h
  by_cases hrows : t.rows = []
  · rw [(normalize_cols_total kind today t).2 hrows]
    cases t with
    | mk cols rows =>
      simp only at hcols hrows
      rw [hcols, hrows]
  · have hguard : ¬(t.rows = [] ∨ t.cols = []) := by
      rintro (h | h)
      · exact hrows h
      · rw [hcols] at h
        exact required_ne_nil kind h
    unfold _normalize
    rw [if_neg hguard]
    have hreq_sub : ∀ c ∈ requiredCols kind, c ∈ t.cols := by
      rw [hcols]
      exact fun c hc => hc
    rw [ensureCols_eq_self _ _ hreq_sub]
    have hops : ∀ p ∈ normOps kind today, ∀ v ∈ colVals t p.1, p.2 v = v := by
      intro p hp
      cases kind with
      | singole =>
        simp only [normOps, commonOps, List.mem_append, List.mem_cons,
          List.not_mem_nil, or_false] at hp
        rcases hp with (rfl | rfl | rfl | rfl | rfl) | (rfl | rfl | rfl | rfl | rfl)
        · intro v hv
          have hv2 := hesito v hv
          simp only [outcomeCells, OUTCOMES, List.map_cons, List.map_nil, List.mem_cons,
            List.not_mem_nil, or_false] at hv2
          rcases hv2 with rfl | rfl | rfl <;> rfl
        · intro v hv
          simp [isinCoerce, hesito v hv]
        · intro v hv
          exact fillna_of_notNull (hdata v hv).1
        · intro v hv
          simp [(hdata v hv).2]
        · intro v hv
          exact fillna_of_notNull (hnote v hv)
        · intro v hv
          exact toNum_of_numOrNull (hkind.1 v hv)
        · intro v hv
          have hv2 := hkind.2.1 v hv
          have : notNull v = true := by
            simp only [leagueCells, LEAGUES, List.map_cons, List.map_nil, List.mem_cons,
              List.not_mem_nil, or_false] at hv2
            rcases hv2 with rfl | rfl | rfl | rfl | rfl | rfl | rfl | rfl | rfl <;> rfl
          exact fillna_of_notNull this
        · intro v hv
          simp [isinCoerce, hkind.2.1 v hv]
        · intro v hv
          exact fillna_of_notNull (hkind.2.2.1 v hv)
        · intro v hv
          exact fillna_of_notNull (hkind.2.2.2 v hv)
      | multiple =>
        simp only [normOps, commonOps, List.mem_append, List.mem_cons,
          List.not_mem_nil, or_false] at hp
        rcases hp with (rfl | rfl | rfl | rfl | rfl) | (rfl | rfl | rfl)
        · intro v hv
          have hv2 := hesito v hv
          simp only [outcomeCells, OUTCOMES, List.map_cons, List.map_nil, List.mem_cons,
            List.not_mem_nil, or_false] at hv2
          rcases hv2 with rfl | rfl | rfl <;> rfl
        · intro v hv
          simp [isinCoerce, hesito v hv]
        · intro v hv
          exact fillna_of_notNull (hdata v hv).1
        · intro v hv
          simp [(hdata v hv).2]
        · intro v hv
          exact fillna_of_notNull (hnote v hv)
        · intro v hv
          exact toNum_of_numOrNull (hkind.1 v hv)
        · intro v hv
          have hv2 := hkind.2.1 v hv
          cases v with
          | num q => rfl
          | str s => simp [isNumCell] at hv2
          | null => simp [isNumCell] at hv2
        · intro v hv
          exact fillna_of_notNull (hkind.2.2 v hv)
    rw [applyOps_eq_self _ _ hwf hops, ensure_ids_eq_self hwf hint hnd,
      select_eq_self hcols (required_nodup kind) hwf]
    exact sortById_eq_self (sorted_rows_iff_pairwise.2 hsorted)

/-! `_normalize` always produces a table in canonical form (up to id
uniqueness, which can fail, see the C5 counterexample). -/

theorem colVals_normalize_perm2 (kind : Kind) (today : String) (t : Table) (hwf : WF t)
    (hguard : ¬(t.rows = [] ∨ t.cols = [])) {d : String} (hreq : d ∈ requiredCols kind)
    (hne : d ≠ "ID") :
    (colVals (_normalize kind today t) d).Perm
      ((colVals (ensureCols t (requiredCols kind)) d).map (netFun (normOps kind today) d)) := by
  rcases ensureCols_props (requiredCols kind) t hwf with ⟨e1, e2, e3, e4, e5, e6⟩
  unfold _normalize
  rw [if_neg hguard]
  have step1 := colVals_sortById_perm
    (select (_ensure_ids (applyOps (ensureCols t (requiredCols kind)) (normOps kind today)))
      (requiredCols kind)) d
  rw [colVals_select hreq, colVals_ensure_ids_ne hne,
    colVals_applyOps _ _ e2 d (e4 d hreq)] at step1
  exact step1

theorem exists_dup_of_not_nodup {l : List Cell} (h : ¬ (numsOf l).Nodup) :
    ∃ q : ℚ, 2 ≤ l.count (Cell.num q) := by
  rw [List.nodup_iff_count_le_one] at h
  push_neg at h
  rcases h with ⟨q, hq⟩
  refine ⟨q, ?_⟩
  rw [← count_numsOf]
  omega

theorem esitoCoe_mem (c : Cell) : esitoCoe c ∈ outcomeCells := by
  rw [esitoCoe_spec]
  split
  · assumption
  · simp [outcomeCells, OUTCOMES]

theorem campionatoCoe_mem (c : Cell) : campionatoCoe c ∈ leagueCells := by
  rw [campionatoCoe_spec]
  split
  · assumption
  · simp [leagueCells, LEAGUES]

theorem dataCoe_ok {today : String} (h : isBlankCell (Cell.str today) = false) (c : Cell) :
    notNull (dataCoe today c) = true ∧ isBlankCell (dataCoe today c) = false := by
  unfold dataCoe
  split
  · exact ⟨rfl, h⟩
  · rename_i hblank
    constructor
    · cases c <;> rfl
    · exact Bool.not_eq_true _ ▸ hblank

theorem fillna_notNull {v : Cell} (hv : notNull v = true) (c : Cell) :
    notNull (fillna v c) = true := by
  cases c <;> first | exact hv | rfl

theorem toNum_numOrNull (c : Cell) : isNumOrNull (toNum c) = true := by
  cases c with
  | str s =>
    show isNumOrNull (match parseNum s with
      | some q => Cell.num q
      | none => Cell.null) = true
    cases parseNum s <;> rfl
  | num q => rfl
  | null => rfl

theorem stakeCoe_num (c : Cell) : isNumCell (stakeCoe c) = true := by
  unfold stakeCoe
  have := toNum_numOrNull c
  cases h : toNum c <;> rw [h] at this <;> simp [isNumOrNull] at this <;> rfl

theorem ensure_ids_int {u : Table} (hwf : WF u) (hid : "ID" ∈ u.cols) (hrows : u.rows ≠ []) :
    ∀ c ∈ colVals (_ensure_ids u) "ID", isIntCell c = true := by
  by_cases hnd : (numsOf ((colVals u "ID").map toNum)).Nodup
  · rcases ensure_ids_fill u hwf hid hrows hnd with ⟨g1, _⟩
    rw [g1]
    intro c hc
    rw [List.mem_map] at hc
    rcases hc with ⟨c0, hc0, rfl⟩
    rcases mem_fillMissing hc0 with ⟨h1, h2⟩ | ⟨k, hk, rfl⟩
    · rw [List.mem_map] at h1
      rcases h1 with ⟨x, hx, rfl⟩
      have hno := toNum_numOrNull x
      cases h4 : toNum x with
      | num q => exact isIntCell_iff.2 ⟨truncQ q, rfl⟩
      | null => rw [h4] at h2; exact absurd rfl h2
      | str s => rw [h4] at hno; simp [isNumOrNull] at hno
    · exact isIntCell_iff.2 ⟨truncQ ((k : ℤ) : ℚ), rfl⟩
  · rcases ensure_ids_dup u hwf hid (exists_dup_of_not_nodup hnd) with ⟨g1, _⟩
    rw [g1]
    intro c hc
    rw [List.mem_map] at hc
    rcases hc with ⟨i, _, rfl⟩
    exact isIntCell_iff.2 ⟨(i + 1 : ℕ), by norm_cast⟩

theorem normalize_canonicalW (kind : Kind) (today : String) (t : Table) (hwf : WF t)
    (htoday : isBlankCell (Cell.str today) = false) :
    CanonicalW kind (_normalize kind today t) := by
  by_cases hguard : t.rows = [] ∨ t.cols = []
  · have h1 : _normalize kind today t = { cols := requiredCols kind, rows := [] } := by
      unfold _normalize
      rw [if_pos hguard]
    rw [h1]
    refine ⟨rfl, ?_, ?_, ?_, ?_, ?_, ?_, ?_⟩
    · intro r hr
      simp at hr
    · intro c hc
      simp [colVals] at hc
    · simp [colVals]
    · intro c hc
      simp [colVals] at hc
    · intro c hc
      simp [colVals] at hc
    · intro c hc
      simp [colVals] at hc
    · cases kind with
      | singole =>
        refine ⟨?_, ?_, ?_, ?_⟩ <;> intro c hc <;> simp [colVals] at hc
      | multiple =>
        refine ⟨?_, ?_, ?_⟩ <;> intro c hc <;> simp [colVals] at hc
  · have himg : ∀ d : String, d ∈ requiredCols kind → d ≠ "ID" →
        ∀ c ∈ colVals (_normalize kind today t) d,
          ∃ x, c = netFun (normOps kind today) d x := by
      intro d hreq hne c hc
      have hp := colVals_normalize_perm2 kind today t hwf hguard hreq hne
      have hmem := hp.mem_iff.1 hc
      rw [List.mem_map] at hmem
      rcases hmem with ⟨x, _, rfl⟩
      exact ⟨x, rfl⟩
    have hreq_mem : ∀ d : String, d ∈ requiredCols Kind.singole ∨ d ∈ requiredCols Kind.multiple
        → True := fun _ _ => trivial
    rcases ensureCols_props (requiredCols kind) t hwf with ⟨e1, e2, e3, e4, e5, e6⟩
    have hnorm_eq : _normalize kind today t
        = sortById (select
            (_ensure_ids (applyOps (ensureCols t (requiredCols kind)) (normOps kind today)))
            (requiredCols kind)) := by
      unfold _normalize
      rw [if_neg hguard]
    have hrows : t.rows ≠ [] := fun h => hguard (Or.inl h)
    have hwfs : WF (applyOps (ensureCols t (requiredCols kind)) (normOps kind today)) :=
      WF_applyOps _ _ e2
    have hid_stage : "ID" ∈ (applyOps (ensureCols t (requiredCols kind)) (normOps kind today)).cols := by
      rw [cols_applyOps]
      exact e4 _ (id_mem_required kind)
    have hrows_stage :
        (applyOps (ensureCols t (requiredCols kind)) (normOps kind today)).rows ≠ [] := by
      intro h
      have hl := rows_length_applyOps (normOps kind today) (ensureCols t (requiredCols kind))
      rw [h, e1] at hl
      exact hrows (List.length_eq_zero.1 hl.symm)
    have hints := ensure_ids_int hwfs hid_stage hrows_stage
    refine ⟨(normalize_cols_total kind today t).1, ?_, ?_, ?_, ?_, ?_, ?_, ?_⟩
    · rw [hnorm_eq]
      exact WF_sortById (WF_select _ _)
    · rw [hnorm_eq]
      intro c hc
      have hperm := colVals_sortById_perm
        (select (_ensure_ids (applyOps (ensureCols t (requiredCols kind)) (normOps kind today)))
          (requiredCols kind)) "ID"
      rw [colVals_select (id_mem_required kind)] at hperm
      exact hints c (hperm.mem_iff.1 hc)
    · rw [hnorm_eq]
      have hs := sorted_sortById
        (select (_ensure_ids (applyOps (ensureCols t (requiredCols kind)) (normOps kind today)))
          (requiredCols kind))
      exact sorted_rows_iff_pairwise.1 hs
    · intro c hc
      rcases himg "Esito" (by cases kind <;> decide) (by decide) c hc with ⟨x, rfl⟩
      rw [netFun_esito]
      exact esitoCoe_mem x
    · intro c hc
      rcases himg "Data" (by cases kind <;> decide) (by decide) c hc with ⟨x, rfl⟩
      rw [netFun_data]
      exact dataCoe_ok htoday x
    · intro c hc
      rcases himg "Note" (by cases kind <;> decide) (by decide) c hc with ⟨x, rfl⟩
      rw [netFun_note]
      exact fillna_notNull (by rfl) x
    · cases kind with
      | singole =>
        refine ⟨?_, ?_, ?_, ?_⟩
        · intro c hc
          rcases himg "Quota" (by decide) (by decide) c hc with ⟨x, rfl⟩
          rw [netFun_quota]
          exact toNum_numOrNull x
        · intro c hc
          rcases himg "Campionato" (by decide) (by decide) c hc with ⟨x, rfl⟩
          rw [netFun_campionato]
          exact campionatoCoe_mem x
        · intro c hc
          rcases himg "Partita" (by decide) (by decide) c hc with ⟨x, rfl⟩
          rw [netFun_partita]
          exact fillna_notNull (by rfl) x
        · intro c hc
          rcases himg "Mercato" (by decide) (by decide) c hc with ⟨x, rfl⟩
          rw [netFun_mercato]
          exact fillna_notNull (by rfl) x
      | multiple =>
        refine ⟨?_, ?_, ?_⟩
        · intro c hc
          rcases himg "Quota Totale" (by decide) (by decide) c hc with ⟨x, rfl⟩
          rw [netFun_quota_totale]
          exact toNum_numOrNull x
        · intro c hc
          rcases himg "Stake" (by decide) (by decide) c hc with ⟨x, rfl⟩
          rw [netFun_stake]
          exact stakeCoe_num x
        · intro c hc
          rcases himg "Multipla" (by decide) (by decide) c hc with ⟨x, rfl⟩
          rw [netFun_multipla]
          exact fillna_notNull (by rfl) x

/-! Claim C4: idempotence of `_normalize`. -/

/-- Concrete input for the C4 counterexample: the two ids parse to `0.5` and
`0.4`, the first pass truncates both to `0`, and the second pass sees
duplicate ids and renumbers `1, 2` — so normalizing twice differs from
normalizing once even though every date is non-blank. -/
def Yc4 : Table :=
  Table.mk ["ID", "Data", "Campionato", "Partita", "Mercato", "Quota", "Esito", "Note"]
    [[Cell.str "0.5", Cell.str "2024-01-01", Cell.str "Serie A", Cell.str "a", Cell.str "b",
      Cell.str "1.5", Cell.str "Vinta", Cell.str ""],
     [Cell.str "0.4", Cell.str "2024-01-01", Cell.str "Serie A", Cell.str "a", Cell.str "b",
      Cell.str "1.5", Cell.str "Vinta", Cell.str ""]]

/-- C4 fails as stated for arbitrary raw input: `_normalize` applied twice to
`Yc4` (with the same, non-blank, current date) differs from `_normalize`
applied once. -/
theorem normalize_idempotent_cex :
    _normalize Kind.singole "2024-05-05" (_normalize Kind.singole "2024-05-05" Yc4)
      ≠ _normalize Kind.singole "2024-05-05" Yc4 :=
  of_decide_eq_true (by with_unfolding_all rfl)

/-- C4 (amended): `_normalize` is the identity on every table in canonical
form — which, per the spec's data model, includes pairwise-distinct ids —
with all date fields non-blank (part of `Canonical`); and `_normalize` is
idempotent on every raw input whose normalized id column is duplicate-free.
The amendment adds the duplicate-free proviso to the second half: ids that
truncate to a collision are renumbered by the second pass, see the
counterexample. -/
theorem normalize_idempotent (kind : Kind) (today : String)
    (htoday : isBlankCell (Cell.str today) = false) :
    (∀ t, Canonical kind t → _normalize kind today t = t) ∧
    (∀ y, WF y → (colVals (_normalize kind today y) "ID").Nodup →
      _normalize kind today (_normalize kind today y) = _normalize kind today y) := by
  constructor
  · intro t ht
    exact normalize_fix kind today ht
  · intro y hwfy hnd
    exact normalize_fix kind today ⟨normalize_canonicalW kind today y hwfy htoday, hnd⟩

instance (kind : Kind) (t : Table) : Decidable (CanonicalW kind t) := by
  unfold CanonicalW
  cases kind <;> dsimp only <;> infer_instance

instance (kind : Kind) (t : Table) : Decidable (Canonical kind t) := by
  unfold Canonical
  infer_instance

/-- A concrete canonical table for the C4 witness. -/
def Tc4 : Table :=
  Table.mk ["ID", "Data", "Campionato", "Partita", "Mercato", "Quota", "Esito", "Note"]
    [[Cell.num 1, Cell.str "2024-01-01", Cell.str "Serie A", Cell.str "x", Cell.str "y",
      Cell.num (3 / 2), Cell.str "Vinta", Cell.str ""],
     [Cell.num 2, Cell.str "2024-01-02", Cell.str "Altro", Cell.str "", Cell.str "",
      Cell.null, Cell.str "In attesa", Cell.str "n"]]

/-- Witness for C4: the hypotheses hold at `Tc4` and the theorem applies. -/
theorem normalize_idempotent_witness :
    isBlankCell (Cell.str "2024-05-05") = false ∧
    Canonical Kind.singole Tc4 ∧
    _normalize Kind.singole "2024-05-05" Tc4 = Tc4 := by
  have h1 : isBlankCell (Cell.str "2024-05-05") = false := by decide
  have h2 : Canonical Kind.singole Tc4 := of_decide_eq_true (by with_unfolding_all rfl)
  exact ⟨h1, h2, (normalize_idempotent Kind.singole "2024-05-05" h1).1 Tc4 h2⟩

/-! Table extensionality and the stringifying store cycle. -/

theorem colIdx_getElem {t : Table} {j : ℕ} (hnd : t.cols.Nodup) (hj : j < t.cols.length) :
    colIdx t (t.cols[j]) = some j := by
  unfold colIdx
  rw [List.findIdx?_eq_some_iff_getElem]
  refine ⟨hj, by simp, ?_⟩
  intro i hij
  simp only [Bool.not_eq_true, beq_eq_false_iff_ne, ne_eq]
  intro heq
  have h2 : i = j := (List.Nodup.getElem_inj_iff hnd).1 heq
  omega

theorem table_ext {u v : Table} (hcols : u.cols = v.cols) (hnd : u.cols.Nodup)
    (hwfu : WF u) (hwfv : WF v) (hlen : u.rows.length = v.rows.length)
    (hvals : ∀ d ∈ u.cols, colVals u d = colVals v d) : u = v := by
  cases u with
  | mk cols rows =>
    cases v with
    | mk cols2 rows2 =>
      simp only at hcols hlen hvals hnd hwfu hwfv
      subst hcols
      simp only [Table.mk.injEq, true_and]
      apply List.ext_getElem hlen
      intro i hi1 hi2
      have hr1 : rows[i].length = cols.length := hwfu _ (List.getElem_mem hi1)
      have hr2 : rows2[i].length = cols.length := hwfv _ (List.getElem_mem hi2)
      apply List.ext_getElem (by omega)
      intro j hj1 hj2
      have hjcols : j < cols.length := by omega
      have hcv := hvals (cols[j]) (List.getElem_mem hjcols)
      have hidx : colIdx (Table.mk cols rows) (cols[j]) = some j := colIdx_getElem hnd hjcols
      have hidx2 : colIdx (Table.mk cols rows2) (cols[j]) = some j := colIdx_getElem hnd hjcols
      unfold colVals at hcv
      rw [hidx] at hcv
      rw [show colIdx (Table.mk cols rows2) (cols[j])
          = colIdx (Table.mk cols rows) (cols[j]) from rfl, hidx] at hcv
      have := congrArg (fun l => l[i]?) hcv
      simp only [List.getElem?_map] at this
      rw [List.getElem?_eq_getElem hi1, List.getElem?_eq_getElem hi2] at this
      simp only [Option.map_some'] at this
      have h3 : getCell rows[i] (some j) = getCell rows2[i] (some j) := by
        exact Option.some.inj this
      simp only [getCell] at h3
      rw [List.getD_eq_getElem _ _ (by omega), List.getD_eq_getElem _ _ (by omega)] at h3
      exact h3

theorem rows_length_stringify (t : Table) :
    (stringifyTable t).rows.length = t.rows.length := by
  simp [stringifyTable]

theorem WF_stringify {t : Table} (hwf : WF t) : WF (stringifyTable t) := by
  intro r hr
  simp only [stringifyTable, List.mem_map] at hr
  rcases hr with ⟨r₀, hr₀, rfl⟩
  simp [stringifyTable, hwf r₀ hr₀]

theorem colVals_stringify {t : Table} {d : String} (hwf : WF t) (hd : d ∈ t.cols) :
    colVals (stringifyTable t) d = (colVals t d).map (fun c => Cell.str (cellToStr c)) := by
  rcases colIdx_isSome_of_mem hd with ⟨j, hj⟩
  have hjlt := colIdx_lt hj
  have hidx : colIdx (stringifyTable t) d = some j := hj
  unfold colVals
  rw [hidx, hj]
  show List.map (fun r => getCell r (some j))
      (t.rows.map (fun r => r.map (fun c => Cell.str (cellToStr c))))
    = List.map (fun c => Cell.str (cellToStr c)) (t.rows.map (fun r => getCell r (some j)))
  rw [List.map_map, List.map_map]
  apply List.map_congr_left
  intro r hr
  have hlen : r.length = t.cols.length := hwf r hr
  simp only [Function.comp, getCell]
  rw [List.getD_eq_getElem _ _ (show j < r.length by omega),
    List.getD_eq_getElem _ _ (by simpa using show j < r.length by omega)]
  simp

/-! Correctness of the numeral printer against the numeral parser. -/

theorem digVal_digitChar {d : ℕ} (h : d < 10) : digVal (Nat.digitChar d) = d := by
  interval_cases d <;> rfl

theorem isDig_digitChar {d : ℕ} (h : d < 10) : isDig (Nat.digitChar d) = true := by
  interval_cases d <;> decide

theorem isWs_digitChar {d : ℕ} (h : d < 10) : isWs (Nat.digitChar d) = false := by
  interval_cases d <;> decide

theorem digitsVal_append_one (l : List Char) (c : Char) :
    digitsVal (l ++ [c]) = 10 * digitsVal l + digVal c := by
  unfold digitsVal
  rw [List.foldl_append]
  rfl

theorem digitsVal_reverse_map : ∀ (ds : List ℕ), (∀ d ∈ ds, d < 10) →
    digitsVal ((ds.map Nat.digitChar).reverse) = Nat.ofDigits 10 ds
  | [], _ => rfl
  | d :: ds, h => by
    have hd : d < 10 := h d (List.mem_cons_self _ _)
    rw [List.map_cons, List.reverse_cons, digitsVal_append_one,
      digitsVal_reverse_map ds (fun x hx => h x (List.mem_cons_of_mem _ hx)),
      digVal_digitChar hd, Nat.ofDigits_cons]
    ring

theorem natToChars_all_dig (n : ℕ) : ∀ c ∈ natToChars n, isDig c = true := by
  unfold natToChars
  split
  · intro c hc
    rw [List.mem_singleton] at hc
    subst hc
    decide
  · intro c hc
    rw [List.mem_reverse, List.mem_map] at hc
    rcases hc with ⟨d, hd, rfl⟩
    exact isDig_digitChar (Nat.digits_lt_base (by norm_num) hd)

theorem natToChars_no_ws (n : ℕ) : ∀ c ∈ natToChars n, isWs c = false := by
  unfold natToChars
  split
  · intro c hc
    rw [List.mem_singleton] at hc
    subst hc
    decide
  · intro c hc
    rw [List.mem_reverse, List.mem_map] at hc
    rcases hc with ⟨d, hd, rfl⟩
    exact isWs_digitChar (Nat.digits_lt_base (by norm_num) hd)

theorem digitsVal_natToChars (n : ℕ) : digitsVal (natToChars n) = n := by
  unfold natToChars
  split
  · rename_i h
    rw [h]
    decide
  · rw [digitsVal_reverse_map _ (fun d hd => Nat.digits_lt_base (by norm_num) hd),
      Nat.ofDigits_digits]

theorem natToChars_ne_nil (n : ℕ) : natToChars n ≠ [] := by
  unfold natToChars
  split
  · simp
  · rename_i h
    simp only [ne_eq, List.reverse_eq_nil_iff, List.map_eq_nil_iff]
    rw [Nat.digits_eq_nil_iff_eq_zero]
    exact h

theorem natToChars_len_le {n k : ℕ} (hk : 1 ≤ k) (hn : n < 10 ^ k) :
    (natToChars n).length ≤ k := by
  unfold natToChars
  split
  · simpa using hk
  · rename_i h0
    rw [List.length_reverse, List.length_map, Nat.digits_len 10 n (by norm_num) h0]
    have := (Nat.lt_pow_iff_log_lt (by norm_num) h0).1 hn
    omega

theorem digitsVal_replicate_zero : ∀ j : ℕ,
    List.foldl (fun a c => 10 * a + digVal c) 0 (List.replicate j '0') = 0
  | 0 => rfl
  | j + 1 => by
    rw [List.replicate_succ, List.foldl_cons]
    exact digitsVal_replicate_zero j

theorem digitsVal_padZeros (k : ℕ) (l : List Char) :
    digitsVal (padZeros k l) = digitsVal l := by
  unfold padZeros digitsVal
  rw [List.foldl_append, digitsVal_replicate_zero]

theorem padZeros_all_dig {l : List Char} (h : ∀ c ∈ l, isDig c = true) (k : ℕ) :
    ∀ c ∈ padZeros k l, isDig c = true := by
  intro c hc
  unfold padZeros at hc
  rw [List.mem_append] at hc
  rcases hc with hc | hc
  · rw [List.mem_replicate] at hc
    rw [hc.2]
    decide
  · exact h c hc

theorem padZeros_no_ws {l : List Char} (h : ∀ c ∈ l, isWs c = false) (k : ℕ) :
    ∀ c ∈ padZeros k l, isWs c = false := by
  intro c hc
  unfold padZeros at hc
  rw [List.mem_append] at hc
  rcases hc with hc | hc
  · rw [List.mem_replicate] at hc
    rw [hc.2]
    decide
  · exact h c hc

theorem padZeros_len {l : List Char} {k : ℕ} (h : l.length ≤ k) :
    (padZeros k l).length = k := by
  unfold padZeros
  rw [List.length_append, List.length_replicate]
  omega

theorem dropWhile_of_head_neg {p : Char → Bool} : ∀ {l : List Char},
    (∀ c ∈ l, p c = false) → l.dropWhile p = l
  | [], _ => rfl
  | a :: l, h => by
    rw [List.dropWhile_cons, h a (List.mem_cons_self _ _)]
    simp

theorem trimC_of_no_ws {l : List Char} (h : ∀ c ∈ l, isWs c = false) : trimC l = l := by
  unfold trimC
  rw [dropWhile_of_head_neg h, dropWhile_of_head_neg
    (fun c hc => h c (List.mem_reverse.1 hc)), List.reverse_reverse]

theorem takeWhile_all {p : Char → Bool} : ∀ (l : List Char),
    (∀ c ∈ l, p c = true) → l.takeWhile p = l ∧ l.dropWhile p = []
  | [], _ => ⟨rfl, rfl⟩
  | a :: l, h => by
    have ha := h a (List.mem_cons_self _ _)
    have ih := takeWhile_all l (fun c hc => h c (List.mem_cons_of_mem _ hc))
    rw [List.takeWhile_cons, List.dropWhile_cons, ha]
    simp [ih.1, ih.2]

theorem takeWhile_append_stop {p : Char → Bool} : ∀ (A : List Char) (b : Char) (B : List Char),
    (∀ c ∈ A, p c = true) → p b = false →
    (A ++ b :: B).takeWhile p = A ∧ (A ++ b :: B).dropWhile p = b :: B
  | [], b, B, _, hb => by
    rw [List.nil_append, List.takeWhile_cons, List.dropWhile_cons, hb]
    simp
  | a :: A, b, B, hA, hb => by
    have ha := hA a (List.mem_cons_self _ _)
    have ih := takeWhile_append_stop A b B (fun c hc => hA c (List.mem_cons_of_mem _ hc)) hb
    rw [List.cons_append, List.takeWhile_cons, List.dropWhile_cons, ha]
    simp [ih.1, ih.2]

theorem parseUnsigned_natToChars (n : ℕ) : parseUnsigned (natToChars n) = some ((n : ℕ) : ℚ) := by
  have h := takeWhile_all (natToChars n) (natToChars_all_dig n)
  have hne : (natToChars n).isEmpty = false := by
    rw [List.isEmpty_eq_false]
    exact natToChars_ne_nil n
  unfold parseUnsigned
  rw [h.1, h.2]
  dsimp only
  rw [hne]
  simp [digitsVal_natToChars]

theorem parseUnsigned_decChars (m k : ℕ) (hk : 1 ≤ k) :
    parseUnsigned (decChars m k) = some ((m : ℚ) / 10 ^ k) := by
  have hsplit := takeWhile_append_stop (natToChars (m / 10 ^ k)) '.'
      (padZeros k (natToChars (m % 10 ^ k))) (natToChars_all_dig _) (by decide)
  have hIne : (natToChars (m / 10 ^ k)).isEmpty = false := by
    rw [List.isEmpty_eq_false]
    exact natToChars_ne_nil _
  have hFall : (padZeros k (natToChars (m % 10 ^ k))).all isDig = true :=
    List.all_eq_true.2 (padZeros_all_dig (natToChars_all_dig _) k)
  have hFlen : (padZeros k (natToChars (m % 10 ^ k))).length = k :=
    padZeros_len (natToChars_len_le hk (Nat.mod_lt _ (by positivity)))
  unfold decChars parseUnsigned
  rw [hsplit.1, hsplit.2]
  dsimp only
  rw [hIne]
  show (if (false && (padZeros k (natToChars (m % 10 ^ k))).isEmpty
        || !(padZeros k (natToChars (m % 10 ^ k))).all isDig) = true then none
      else some ((digitsVal (natToChars (m / 10 ^ k)) : ℚ)
        + (digitsVal (padZeros k (natToChars (m % 10 ^ k))) : ℚ)
          / 10 ^ (padZeros k (natToChars (m % 10 ^ k))).length))
    = some ((m : ℚ) / 10 ^ k)
  rw [hFall, hFlen, digitsVal_natToChars, digitsVal_padZeros, digitsVal_natToChars]
  simp only [Bool.false_and, Bool.not_true, Bool.false_or, Bool.false_eq_true, if_false]
  have h10 : ((10 : ℚ) ^ k) ≠ 0 := by positivity
  have hdm : (10 : ℕ) ^ k * (m / 10 ^ k) + m % 10 ^ k = m := Nat.div_add_mod m (10 ^ k)
  congr 1
  rw [eq_div_iff h10]
  have hcast := congrArg (fun z : ℕ => (z : ℚ)) hdm
  push_cast at hcast
  rw [add_mul, div_mul_cancel₀ _ h10]
  linarith [hcast]

theorem decChars_no_ws (m k : ℕ) : ∀ c ∈ decChars m k, isWs c = false := by
  intro c hc
  unfold decChars at hc
  rw [List.mem_append] at hc
  rcases hc with hc | hc
  · exact natToChars_no_ws _ _ hc
  · rcases List.mem_cons.1 hc with rfl | hc
    · decide
    · exact padZeros_no_ws (natToChars_no_ws _) _ _ hc

theorem ratToChars_no_ws (q : ℚ) : ∀ c ∈ ratToChars q, isWs c = false := by
  intro c hc
  unfold ratToChars at hc
  have hsign : ∀ c2 ∈ (if q < 0 then ['-'] else ([] : List Char)), isWs c2 = false := by
    intro c2 hc2
    split at hc2
    · rw [List.mem_singleton] at hc2
      subst hc2
      decide
    · simp at hc2
  split at hc
  · rw [List.mem_append] at hc
    rcases hc with hc | hc
    · exact hsign c hc
    · exact natToChars_no_ws _ _ hc
  · split at hc
    · rw [List.mem_append] at hc
      rcases hc with hc | hc
      · exact hsign c hc
      · exact decChars_no_ws _ _ _ hc
    · rw [List.mem_append, List.mem_append] at hc
      rcases hc with (hc | hc) | hc
      · exact hsign c hc
      · exact natToChars_no_ws _ _ hc
      · rcases List.mem_cons.1 hc with rfl | hc
        · decide
        · exact natToChars_no_ws _ _ hc

theorem parseSigned_of_digit {c : Char} {l : List Char} (h : isDig c = true) :
    parseSigned (c :: l) = parseUnsigned (c :: l) := by
  have h1 : c ≠ '-' := by
    rintro rfl
    exact absurd h (by decide)
  have h2 : c ≠ '+' := by
    rintro rfl
    exact absurd h (by decide)
  unfold parseSigned
  split
  · rename_i rest heq
    rw [List.cons.injEq] at heq
    exact absurd heq.1 h1
  · rename_i rest heq
    rw [List.cons.injEq] at heq
    exact absurd heq.1 h2
  · rfl

theorem head_digit_natToChars (n : ℕ) :
    ∃ c0 l0, natToChars n = c0 :: l0 ∧ isDig c0 = true := by
  cases h : natToChars n with
  | nil => exact absurd h (natToChars_ne_nil n)
  | cons c0 l0 =>
    exact ⟨c0, l0, rfl, natToChars_all_dig n c0 (h ▸ List.mem_cons_self _ _)⟩

theorem head_digit_decChars (m k : ℕ) :
    ∃ c0 l0, decChars m k = c0 :: l0 ∧ isDig c0 = true := by
  rcases head_digit_natToChars (m / 10 ^ k) with ⟨c0, l0, heq, hdig⟩
  refine ⟨c0, l0 ++ '.' :: padZeros k (natToChars (m % 10 ^ k)), ?_, hdig⟩
  unfold decChars
  rw [heq]
  rfl

theorem absVal_div (q : ℚ) (hdec : 10 ^ (q.den.log2 + 1) % q.den = 0) :
    ((q.num.natAbs * (10 ^ (q.den.log2 + 1) / q.den) : ℕ) : ℚ) / 10 ^ (q.den.log2 + 1)
      = (q.num.natAbs : ℚ) / q.den := by
  have hdvd : q.den ∣ 10 ^ (q.den.log2 + 1) := Nat.dvd_of_mod_eq_zero hdec
  have hden0 : (q.den : ℚ) ≠ 0 := by
    exact_mod_cast (Rat.den_pos q).ne'
  have hcastdiv : ((10 ^ (q.den.log2 + 1) / q.den : ℕ) : ℚ)
      = (10 : ℚ) ^ (q.den.log2 + 1) / q.den := by
    rw [Nat.cast_div hdvd hden0]
    push_cast
    ring
  push_cast [hcastdiv]
  have h10 : ((10 : ℚ) ^ (q.den.log2 + 1)) ≠ 0 := by positivity
  field_simp
  ring

theorem natAbs_div_of_nonneg {q : ℚ} (h0 : ¬ q < 0) : (q.num.natAbs : ℚ) / q.den = q := by
  have hge : 0 ≤ q.num := Rat.num_nonneg.2 (not_lt.1 h0)
  have hz : (q.num.natAbs : ℤ) = q.num := by omega
  have h2 : ((q.num.natAbs : ℤ) : ℚ) = (q.num : ℚ) := by
    exact congrArg (fun z : ℤ => (z : ℚ)) hz
  rw [show ((q.num.natAbs : ℕ) : ℚ) = ((q.num.natAbs : ℤ) : ℚ) by rw [Int.cast_natCast], h2,
    Rat.num_div_den]

theorem natAbs_div_of_neg {q : ℚ} (h0 : q < 0) : (q.num.natAbs : ℚ) / q.den = -q := by
  have hle : q.num ≤ 0 := by
    by_contra hpos
    push_neg at hpos
    have : 0 ≤ q.num := le_of_lt hpos
    have := Rat.num_nonneg.1 this
    linarith
  have hz : (q.num.natAbs : ℤ) = -q.num := by omega
  have h2 : ((q.num.natAbs : ℤ) : ℚ) = -(q.num : ℚ) := by
    rw [hz]
    push_cast
    ring
  rw [show ((q.num.natAbs : ℕ) : ℚ) = ((q.num.natAbs : ℤ) : ℚ) by rw [Int.cast_natCast], h2,
    neg_div, Rat.num_div_den]

theorem parse_numToStr {q : ℚ} (hq : q.den = 1 ∨ 10 ^ (q.den.log2 + 1) % q.den = 0) :
    parseNum (numToStr q) = some q := by
  have hdata : (numToStr q).data = ratToChars q := rfl
  unfold parseNum
  rw [hdata, trimC_of_no_ws (ratToChars_no_ws q)]
  by_cases hden : q.den = 1
  · unfold ratToChars
    rw [if_pos hden]
    by_cases h0 : q < 0
    · rw [if_pos h0]
      rw [show (['-'] ++ natToChars q.num.natAbs) = '-' :: natToChars q.num.natAbs from rfl]
      rw [show parseSigned ('-' :: natToChars q.num.natAbs)
          = (parseUnsigned (natToChars q.num.natAbs)).map (fun x => -x) from rfl]
      rw [parseUnsigned_natToChars]
      simp only [Option.map_some']
      congr 1
      have hval : (q.num.natAbs : ℚ) / q.den = -q := natAbs_div_of_neg h0
      rw [hden] at hval
      simp only [Nat.cast_one, div_one] at hval
      rw [hval, neg_neg]
    · rw [if_neg h0, List.nil_append]
      rcases head_digit_natToChars q.num.natAbs with ⟨c0, l0, heq, hdig⟩
      rw [heq, parseSigned_of_digit hdig, ← heq, parseUnsigned_natToChars]
      congr 1
      have hval : (q.num.natAbs : ℚ) / q.den = q := natAbs_div_of_nonneg h0
      rw [hden] at hval
      simp only [Nat.cast_one, div_one] at hval
      exact hval
  · have hdec : 10 ^ (q.den.log2 + 1) % q.den = 0 := hq.resolve_left hden
    unfold ratToChars
    rw [if_neg hden, if_pos hdec]
    have hk : 1 ≤ q.den.log2 + 1 := Nat.le_add_left 1 _
    by_cases h0 : q < 0
    · rw [if_pos h0]
      rw [show (['-'] ++ decChars (q.num.natAbs * (10 ^ (q.den.log2 + 1) / q.den))
            (q.den.log2 + 1))
          = '-' :: decChars (q.num.natAbs * (10 ^ (q.den.log2 + 1) / q.den))
            (q.den.log2 + 1) from rfl]
      rw [show parseSigned ('-' :: decChars (q.num.natAbs * (10 ^ (q.den.log2 + 1) / q.den))
            (q.den.log2 + 1))
          = (parseUnsigned (decChars (q.num.natAbs * (10 ^ (q.den.log2 + 1) / q.den))
            (q.den.log2 + 1))).map (fun x => -x) from rfl]
      rw [parseUnsigned_decChars _ _ hk]
      simp only [Option.map_some']
      congr 1
      have := absVal_div q hdec
      rw [Nat.cast_mul] at this
      rw [show ((10 : ℚ) ^ (q.den.log2 + 1)) = ((10 ^ (q.den.log2 + 1) : ℕ) : ℚ) by
        push_cast; ring] at this ⊢
      rw [Nat.cast_mul, this, natAbs_div_of_neg h0, neg_neg]
    · rw [if_neg h0, List.nil_append]
      rcases head_digit_decChars (q.num.natAbs * (10 ^ (q.den.log2 + 1) / q.den))
        (q.den.log2 + 1) with ⟨c0, l0, heq, hdig⟩
      rw [heq, parseSigned_of_digit hdig, ← heq, parseUnsigned_decChars _ _ hk]
      congr 1
      have := absVal_div q hdec
      rw [Nat.cast_mul] at this
      rw [show ((10 : ℚ) ^ (q.den.log2 + 1)) = ((10 ^ (q.den.log2 + 1) : ℕ) : ℚ) by
        push_cast; ring] at this ⊢
      rw [Nat.cast_mul, this, natAbs_div_of_nonneg h0]

/-! Cell-level roundtrip through the string-typed store. -/

theorem decRep_int (n : ℤ) : decRep ((n : ℤ) : ℚ) := Or.inl (Rat.den_intCast n)

theorem parseNum_nan : parseNum "nan" = none := by decide

theorem toNum_roundtrip_num {q : ℚ} (hq : decRep q) :
    toNum (Cell.str (cellToStr (Cell.num q))) = Cell.num q := by
  have h := parse_numToStr hq
  show (match parseNum (numToStr q) with
    | some p => Cell.num p
    | none => Cell.null) = Cell.num q
  rw [h]

theorem toNum_roundtrip_null : toNum (Cell.str (cellToStr Cell.null)) = Cell.null := by
  show (match parseNum "nan" with
    | some p => Cell.num p
    | none => Cell.null) = Cell.null
  rw [parseNum_nan]

theorem esitoCoe_str_roundtrip {c : Cell} (h : c ∈ outcomeCells) :
    esitoCoe (Cell.str (cellToStr c)) = c := by
  simp only [outcomeCells, OUTCOMES, List.map_cons, List.map_nil, List.mem_cons,
    List.not_mem_nil, or_false] at h
  rcases h with rfl | rfl | rfl <;> rfl

theorem campionatoCoe_str_roundtrip {c : Cell} (h : c ∈ leagueCells) :
    campionatoCoe (Cell.str (cellToStr c)) = c := by
  simp only [leagueCells, LEAGUES, List.map_cons, List.map_nil, List.mem_cons,
    List.not_mem_nil, or_false] at h
  rcases h with rfl | rfl | rfl | rfl | rfl | rfl | rfl | rfl | rfl <;> rfl

theorem dataCoe_str_roundtrip {today : String} {c : Cell} (hs : isStrCell c = true)
    (hb : isBlankCell c = false) : dataCoe today (Cell.str (cellToStr c)) = c := by
  cases c with
  | str s =>
    show dataCoe today (Cell.str s) = Cell.str s
    unfold dataCoe
    rw [show fillna (Cell.str "") (Cell.str s) = Cell.str s from rfl]
    rw [show isBlankCell (Cell.str s) = false from hb]
    simp
  | num q => simp [isStrCell] at hs
  | null => simp [isStrCell] at hs

theorem fillna_str_roundtrip (v : Cell) {c : Cell} (hs : isStrCell c = true) :
    fillna v (Cell.str (cellToStr c)) = c := by
  cases c with
  | str s => rfl
  | num q => simp [isStrCell] at hs
  | null => simp [isStrCell] at hs

theorem toNum_str_roundtrip {c : Cell} (h : isNumOrNull c = true)
    (hq : ∀ q : ℚ, c = Cell.num q → decRep q) :
    toNum (Cell.str (cellToStr c)) = c := by
  cases c with
  | num q => exact toNum_roundtrip_num (hq q rfl)
  | null => exact toNum_roundtrip_null
  | str s => simp [isNumOrNull] at h

theorem stakeCoe_str_roundtrip {c : Cell} (h : isNumCell c = true)
    (hq : ∀ q : ℚ, c = Cell.num q → decRep q) :
    stakeCoe (Cell.str (cellToStr c)) = c := by
  cases c with
  | num q =>
    unfold stakeCoe
    rw [toNum_roundtrip_num (hq q rfl)]
    rfl
  | null => simp [isNumCell] at h
  | str s => simp [isNumCell] at h

/-- When every parsed id is an integer and they are pairwise distinct,
`_ensure_ids` amounts to just the numeric re-parse of the id column. -/
theorem ensure_ids_parse_int {t : Table} (hwf : WF t)
    (hint : ∀ c ∈ colVals (mapCol t "ID" toNum) "ID", isIntCell c = true)
    (hnd : (colVals (mapCol t "ID" toNum) "ID").Nodup) :
    _ensure_ids t = mapCol t "ID" toNum := by
  by_cases hguard : t.rows = [] ∨ t.cols = []
  · have hmc : mapCol t "ID" toNum = t := by
      rcases hguard with h | h
      · cases t with
        | mk cols rows =>
          simp only at h
          subst h
          unfold mapCol
          cases hidx : colIdx (Table.mk cols []) "ID" with
          | none => rfl
          | some j => rfl
      · have hnone : colIdx t "ID" = none := colIdx_eq_none_iff.2 (by rw [h]; simp)
        unfold mapCol
        rw [hnone]
    unfold _ensure_ids
    rw [if_pos hguard, hmc]
  · have hwf1 : WF (mapCol t "ID" toNum) := WF_mapCol _ _ hwf
    have hnums : ∀ c ∈ colVals (mapCol t "ID" toNum) "ID", isNumCell c = true := by
      intro c hc
      rcases isIntCell_iff.1 (hint c hc) with ⟨n, rfl⟩
      rfl
    have hnnd : (numsOf (colVals (mapCol t "ID" toNum) "ID")).Nodup :=
      numsOf_nodup_of_cells hnums hnd
    have htr : (colVals (mapCol t "ID" toNum) "ID").map truncCell
        = colVals (mapCol t "ID" toNum) "ID" := by
      have hcongr : ∀ c ∈ colVals (mapCol t "ID" toNum) "ID", truncCell c = id c := by
        intro c hc
        rcases isIntCell_iff.1 (hint c hc) with ⟨n, rfl⟩
        simp [truncCell, truncQ_intCast]
      rw [List.map_congr_left hcongr, List.map_id]
    unfold _ensure_ids
    rw [if_neg hguard]
    dsimp only
    rw [if_neg (by rintro ⟨h1, h2⟩; exact h2 hnnd), fillMissing_eq_self _ _ hnums, htr]
    exact setColList_own hwf1

/-- Re-normalizing the store image of a canonical table (canonical form, ids
pairwise distinct, text fields held as strings and numeric fields decimally
representable) reproduces the table exactly. -/
theorem normalize_stringify (kind : Kind) (today : String) {z : Table}
    (hz : CanonicalW kind z)
    (hnd : (colVals z "ID").Nodup)
    (hstrData : ∀ c ∈ colVals z "Data", isStrCell c = true)
    (hstrNote : ∀ c ∈ colVals z "Note", isStrCell c = true)
    (hkindStr : match kind with
      | Kind.singole =>
        (∀ c ∈ colVals z "Partita", isStrCell c = true) ∧
        (∀ c ∈ colVals z "Mercato", isStrCell c = true) ∧
        (∀ c ∈ colVals z "Quota", ∀ q : ℚ, c = Cell.num q → decRep q)
      | Kind.multiple =>
        (∀ c ∈ colVals z "Multipla", isStrCell c = true) ∧
        (∀ c ∈ colVals z "Quota Totale", ∀ q : ℚ, c = Cell.num q → decRep q) ∧
        (∀ c ∈ colVals z "Stake", ∀ q : ℚ, c = Cell.num q → decRep q)) :
    _normalize kind today (stringifyTable z) = z := by
  obtain ⟨hcols, hwfz, hint, hsorted, hesito, hdata, hnote, hkind⟩ := hz
  have hwfy : WF (stringifyTable z) := WF_stringify hwfz
  by_cases hrows : z.rows = []
  · have hyrows : (stringifyTable z).rows = [] := by
      simp [stringifyTable, hrows]
    rw [(normalize_cols_total kind today (stringifyTable z)).2 hyrows]
    cases z with
    | mk cols rows =>
      simp only at hcols hrows
      rw [hcols, hrows]
  · have hguard : ¬((stringifyTable z).rows = [] ∨ (stringifyTable z).cols = []) := by
      rintro (h | h)
      · apply hrows
        have hlz : z.rows.length = 0 := by
          rw [← rows_length_stringify z, h]
          rfl
        exact List.length_eq_zero.1 hlz
      · rw [show (stringifyTable z).cols = z.cols from rfl, hcols] at h
        exact required_ne_nil kind h
    unfold _normalize
    rw [if_neg hguard]
    have hreq_sub : ∀ c ∈ requiredCols kind, c ∈ (stringifyTable z).cols := by
      rw [show (stringifyTable z).cols = z.cols from rfl, hcols]
      exact fun c hc => hc
    rw [ensureCols_eq_self _ _ hreq_sub]
    have hidz : "ID" ∈ z.cols := by
      rw [hcols]
      exact id_mem_required kind
    have hidy : "ID" ∈ (stringifyTable z).cols := hidz
    have hwfu1 : WF (applyOps (stringifyTable z) (normOps kind today)) :=
      WF_applyOps _ _ hwfy
    have hidu1 : "ID" ∈ (applyOps (stringifyTable z) (normOps kind today)).cols := by
      rw [cols_applyOps]
      exact hidy
    have hids_u1 : colVals (applyOps (stringifyTable z) (normOps kind today)) "ID"
        = (colVals z "ID").map (fun c => Cell.str (cellToStr c)) := by
      rw [colVals_applyOps _ _ hwfy "ID" hidy, netFun_id, List.map_id,
        colVals_stringify hwfz hidz]
    have hids_parse :
        colVals (mapCol (applyOps (stringifyTable z) (normOps kind today)) "ID" toNum) "ID"
          = colVals z "ID" := by
      rw [colVals_mapCol_self toNum hwfu1 hidu1, hids_u1, List.map_map]
      have hcongr : ∀ c ∈ colVals z "ID",
          (toNum ∘ fun c => Cell.str (cellToStr c)) c = id c := by
        intro c hc
        rcases isIntCell_iff.1 (hint c hc) with ⟨n, rfl⟩
        show toNum (Cell.str (cellToStr (Cell.num ((n : ℤ) : ℚ)))) = _
        rw [toNum_roundtrip_num (decRep_int n)]
        rfl
      rw [List.map_congr_left hcongr, List.map_id]
    have hint2 : ∀ c ∈ colVals
        (mapCol (applyOps (stringifyTable z) (normOps kind today)) "ID" toNum) "ID",
        isIntCell c = true := by
      rw [hids_parse]
      exact hint
    have hnd2 : (colVals
        (mapCol (applyOps (stringifyTable z) (normOps kind today)) "ID" toNum) "ID").Nodup := by
      rw [hids_parse]
      exact hnd
    rw [ensure_ids_parse_int hwfu1 hint2 hnd2]
    have hsel : select (mapCol (applyOps (stringifyTable z) (normOps kind today)) "ID" toNum)
        (requiredCols kind) = z := by
      apply table_ext
      · rw [show (select (mapCol (applyOps (stringifyTable z) (normOps kind today)) "ID" toNum)
            (requiredCols kind)).cols = requiredCols kind from rfl, hcols]
      · exact hcols ▸ required_nodup kind
      · exact WF_select _ _
      · exact hwfz
      · rw [rows_length_select, rows_length_mapCol, rows_length_applyOps,
          rows_length_stringify]
      · intro d hd
        rw [show (select (mapCol (applyOps (stringifyTable z) (normOps kind today)) "ID" toNum)
            (requiredCols kind)).cols = requiredCols kind from rfl] at hd
        rw [colVals_select hd]
        by_cases hdid : d = "ID"
        · subst hdid
          exact hids_parse
        · have hdy : d ∈ (stringifyTable z).cols := hreq_sub d hd
          have hdz : d ∈ z.cols := hdy
          rw [colVals_mapCol_ne toNum hdid, colVals_applyOps _ _ hwfy d hdy,
            colVals_stringify hwfz hdz, List.map_map]
          have hfix : ∀ c ∈ colVals z d,
              (netFun (normOps kind today) d ∘ fun c => Cell.str (cellToStr c)) c = id c := by
            cases kind with
            | singole =>
              simp only [requiredCols, REQUIRED_COLUMNS_SINGOLE, List.mem_cons,
                List.not_mem_nil, or_false] at hd
              rcases hd with rfl | rfl | rfl | rfl | rfl | rfl | rfl | rfl
              · exact absurd rfl hdid
              · intro c hc
                show netFun (normOps Kind.singole today) "Data" (Cell.str (cellToStr c)) = c
                rw [netFun_data]
                exact dataCoe_str_roundtrip (hstrData c hc) (hdata c hc).2
              · intro c hc
                show netFun (normOps Kind.singole today) "Campionato" (Cell.str (cellToStr c)) = c
                rw [netFun_campionato]
                exact campionatoCoe_str_roundtrip (hkind.2.1 c hc)
              · intro c hc
                show netFun (normOps Kind.singole today) "Partita" (Cell.str (cellToStr c)) = c
                rw [netFun_partita]
                exact fillna_str_roundtrip _ (hkindStr.1 c hc)
              · intro c hc
                show netFun (normOps Kind.singole today) "Mercato" (Cell.str (cellToStr c)) = c
                rw [netFun_mercato]
                exact fillna_str_roundtrip _ (hkindStr.2.1 c hc)
              · intro c hc
                show netFun (normOps Kind.singole today) "Quota" (Cell.str (cellToStr c)) = c
                rw [netFun_quota]
                exact toNum_str_roundtrip (hkind.1 c hc) (hkindStr.2.2 c hc)
              · intro c hc
                show netFun (normOps Kind.singole today) "Esito" (Cell.str (cellToStr c)) = c
                rw [netFun_esito]
                exact esitoCoe_str_roundtrip (hesito c hc)
              · intro c hc
                show netFun (normOps Kind.singole today) "Note" (Cell.str (cellToStr c)) = c
                rw [netFun_note]
                exact fillna_str_roundtrip _ (hstrNote c hc)
            | multiple =>
              simp only [requiredCols, REQUIRED_COLUMNS_MULTIPLE, List.mem_cons,
                List.not_mem_nil, or_false] at hd
              rcases hd with rfl | rfl | rfl | rfl | rfl | rfl | rfl
              · exact absurd rfl hdid
              · intro c hc
                show netFun (normOps Kind.multiple today) "Data" (Cell.str (cellToStr c)) = c
                rw [netFun_data]
                exact dataCoe_str_roundtrip (hstrData c hc) (hdata c hc).2
              · intro c hc
                show netFun (normOps Kind.multiple today) "Multipla" (Cell.str (cellToStr c)) = c
                rw [netFun_multipla]
                exact fillna_str_roundtrip _ (hkindStr.1 c hc)
              · intro c hc
                show netFun (normOps Kind.multiple today) "Quota Totale"
                  (Cell.str (cellToStr c)) = c
                rw [netFun_quota_totale]
                exact toNum_str_roundtrip (hkind.1 c hc) (hkindStr.2.1 c hc)
              · intro c hc
                show netFun (normOps Kind.multiple today) "Stake" (Cell.str (cellToStr c)) = c
                rw [netFun_stake]
                exact stakeCoe_str_roundtrip (hkind.2.1 c hc) (hkindStr.2.2 c hc)
              · intro c hc
                show netFun (normOps Kind.multiple today) "Esito" (Cell.str (cellToStr c)) = c
                rw [netFun_esito]
                exact esitoCoe_str_roundtrip (hesito c hc)
              · intro c hc
                show netFun (normOps Kind.multiple today) "Note" (Cell.str (cellToStr c)) = c
                rw [netFun_note]
                exact fillna_str_roundtrip _ (hstrNote c hc)
          rw [List.map_congr_left hfix, List.map_id]
    rw [hsel]
    exact sortById_eq_self (sorted_rows_iff_pairwise.2 hsorted)

/-! Every value produced by the numeral parser is decimally representable. -/

theorem dvd_pow10_log2 {d k : ℕ} (h : d ∣ 10 ^ k) : d ∣ 10 ^ (d.log2 + 1) := by
  have h25 : (10 : ℕ) ^ k = 2 ^ k * 5 ^ k := by
    rw [← Nat.mul_pow]
  rw [h25] at h
  rcases exists_dvd_and_dvd_of_dvd_mul h with ⟨d1, d2, h1, h2, rfl⟩
  rcases (Nat.dvd_prime_pow Nat.prime_two).1 h1 with ⟨a, hak, rfl⟩
  rcases (Nat.dvd_prime_pow (by norm_num : Nat.Prime 5)).1 h2 with ⟨b, hbk, rfl⟩
  have hlt : 2 ^ a * 5 ^ b < 2 ^ ((2 ^ a * 5 ^ b).log2 + 1) := Nat.lt_log2_self
  have ha : 2 ^ a ≤ 2 ^ a * 5 ^ b :=
    Nat.le_mul_of_pos_right _ (pow_pos (by norm_num) b)
  have hb : 2 ^ b ≤ 2 ^ a * 5 ^ b := by
    calc 2 ^ b ≤ 5 ^ b := Nat.pow_le_pow_left (by norm_num) b
      _ ≤ 2 ^ a * 5 ^ b := Nat.le_mul_of_pos_left _ (pow_pos (by norm_num) a)
  have haL : a ≤ (2 ^ a * 5 ^ b).log2 + 1 := by
    by_contra hc
    push_neg at hc
    have : 2 ^ ((2 ^ a * 5 ^ b).log2 + 1) ≤ 2 ^ a := Nat.pow_le_pow_right (by norm_num) (by omega)
    omega
  have hbL : b ≤ (2 ^ a * 5 ^ b).log2 + 1 := by
    by_contra hc
    push_neg at hc
    have : 2 ^ ((2 ^ a * 5 ^ b).log2 + 1) ≤ 2 ^ b := Nat.pow_le_pow_right (by norm_num) (by omega)
    omega
  have hfin : 2 ^ a * 5 ^ b ∣ 2 ^ ((2 ^ a * 5 ^ b).log2 + 1) * 5 ^ ((2 ^ a * 5 ^ b).log2 + 1) :=
    mul_dvd_mul (pow_dvd_pow 2 haL) (pow_dvd_pow 5 hbL)
  rw [← Nat.mul_pow] at hfin
  norm_num at hfin
  exact hfin

theorem decRep_of_dvd_pow10 {q : ℚ} {k : ℕ} (h : q.den ∣ 10 ^ k) : decRep q := by
  by_cases h1 : q.den = 1
  · exact Or.inl h1
  · refine Or.inr ?_
    rcases dvd_pow10_log2 h with ⟨c, hc⟩
    rw [hc]
    exact Nat.mul_mod_right _ _

theorem den_dvd_pow10 (a b k : ℕ) : ((a : ℚ) + (b : ℚ) / 10 ^ k).den ∣ 10 ^ k := by
  have hq : (a : ℚ) + (b : ℚ) / 10 ^ k
      = Rat.divInt ((a : ℤ) * 10 ^ k + (b : ℤ)) ((10 : ℤ) ^ k) := by
    rw [Rat.divInt_eq_div]
    have h10 : ((10 : ℚ) ^ k) ≠ 0 := by positivity
    push_cast
    field_simp
  rw [hq]
  have hdvd := Rat.den_dvd ((a : ℤ) * 10 ^ k + (b : ℤ)) ((10 : ℤ) ^ k)
  have hcast : ((10 : ℤ) ^ k) = ((10 ^ k : ℕ) : ℤ) := by push_cast; ring
  rw [hcast] at hdvd
  exact_mod_cast hdvd

theorem decRep_parseUnsigned {l : List Char} {q : ℚ} (h : parseUnsigned l = some q) :
    decRep q := by
  unfold parseUnsigned at h
  dsimp only at h
  split at h
  · split at h
    · exact absurd h (by simp)
    · have hq := Option.some.inj h
      subst hq
      exact Or.inl (Rat.den_natCast _)
  · split at h
    · exact absurd h (by simp)
    · have hq := Option.some.inj h
      subst hq
      exact decRep_of_dvd_pow10 (den_dvd_pow10 _ _ _)
  · exact absurd h (by simp)

theorem decRep_neg {q : ℚ} (h : decRep q) : decRep (-q) := by
  unfold decRep at h ⊢
  rw [Rat.neg_den]
  exact h

theorem decRep_parseNum {s : String} {q : ℚ} (h : parseNum s = some q) : decRep q := by
  unfold parseNum at h
  unfold parseSigned at h
  split at h
  · rw [Option.map_eq_some'] at h
    rcases h with ⟨p, hp, rfl⟩
    exact decRep_neg (decRep_parseUnsigned hp)
  · exact decRep_parseUnsigned h
  · exact decRep_parseUnsigned h

/-! An all-string table stays all-string through `ensureCols`, and its
normalized image satisfies the roundtrip side conditions. -/

theorem allStr_addCol {t : Table} {c : String} (hall : AllStr t) :
    AllStr (addCol t c (Cell.str "")) := by
  intro r hr
  simp only [addCol, List.mem_map] at hr
  rcases hr with ⟨r0, hr0, rfl⟩
  intro x hx
  rcases List.mem_append.1 hx with hx | hx
  · exact hall r0 hr0 x hx
  · rw [List.mem_singleton] at hx
    subst hx
    rfl

theorem allStr_ensureCols : ∀ (req : List String) (t : Table), AllStr t →
    AllStr (ensureCols t req)
  | [], _, h => h
  | c :: req, t, h => by
    have hstep : ensureCols t (c :: req)
        = ensureCols (if c ∈ t.cols then t else addCol t c (Cell.str "")) req := by
      unfold ensureCols
      simp only [List.foldl_cons]
    rw [hstep]
    by_cases hc : c ∈ t.cols
    · rw [if_pos hc]
      exact allStr_ensureCols req t h
    · rw [if_neg hc]
      exact allStr_ensureCols req _ (allStr_addCol h)

theorem colVals_allStr {t : Table} (hwf : WF t) (hall : AllStr t) {d : String}
    (hd : d ∈ t.cols) : ∀ c ∈ colVals t d, isStrCell c = true := by
  intro c hc
  unfold colVals at hc
  rw [List.mem_map] at hc
  rcases hc with ⟨r, hr, rfl⟩
  rcases colIdx_isSome_of_mem hd with ⟨j, hj⟩
  rw [hj]
  show isStrCell (r.getD j Cell.null) = true
  have hjlt : j < t.cols.length := colIdx_lt hj
  have hlen : r.length = t.cols.length := hwf r hr
  rw [List.getD_eq_getElem _ _ (by omega)]
  exact hall r hr _ (List.getElem_mem _)

theorem normalize_allStr_cells (kind : Kind) (today : String) {x : Table} (hwf : WF x)
    (hall : AllStr x) {d : String} (hreq : d ∈ requiredCols kind) (hne : d ≠ "ID") :
    ∀ c ∈ colVals (_normalize kind today x) d,
      ∃ x0, isStrCell x0 = true ∧ c = netFun (normOps kind today) d x0 := by
  intro c hc
  by_cases hguard : x.rows = [] ∨ x.cols = []
  · have hempty : _normalize kind today x = { cols := requiredCols kind, rows := [] } := by
      unfold _normalize
      rw [if_pos hguard]
    rw [hempty] at hc
    simp [colVals] at hc
  · rcases ensureCols_props (requiredCols kind) x hwf with ⟨e1, e2, e3, e4, e5, e6⟩
    have hp := colVals_normalize_perm2 kind today x hwf hguard hreq hne
    have hmem := hp.mem_iff.1 hc
    rw [List.mem_map] at hmem
    rcases hmem with ⟨x0, hx0, rfl⟩
    exact ⟨x0, colVals_allStr e2 (allStr_ensureCols _ _ hall) (e4 d hreq) x0 hx0, rfl⟩

theorem isStrCell_dataCoe (today : String) (s : String) :
    isStrCell (dataCoe today (Cell.str s)) = true := by
  unfold dataCoe
  split <;> rfl

theorem decRep_toNum_str (s : String) : ∀ q : ℚ, toNum (Cell.str s) = Cell.num q → decRep q := by
  intro q h
  have h2 : (match parseNum s with
    | some p => Cell.num p
    | none => Cell.null) = Cell.num q := h
  cases hp : parseNum s with
  | some p =>
    rw [hp] at h2
    exact (Cell.num.inj h2) ▸ decRep_parseNum hp
  | none =>
    rw [hp] at h2
    exact absurd h2 (by simp)

theorem decRep_stakeCoe_str (s : String) :
    ∀ q : ℚ, stakeCoe (Cell.str s) = Cell.num q → decRep q := by
  intro q h
  unfold stakeCoe at h
  cases hp : toNum (Cell.str s) with
  | num p =>
    rw [hp] at h
    have h2 : Cell.num p = Cell.num q := h
    exact (Cell.num.inj h2) ▸ decRep_toNum_str s p hp
  | null =>
    rw [hp] at h
    have h2 : Cell.num 0 = Cell.num q := h
    have hq : (0 : ℚ) = q := Cell.num.inj h2
    subst hq
    exact Or.inl (by decide)
  | str s2 =>
    have := toNum_numOrNull (Cell.str s)
    rw [hp] at this
    simp [isNumOrNull] at this

/-! Claim C9: the write/read roundtrip through the store. -/

/-- Concrete input for the C9 counterexample: the `Note` cell holds the
number `7` (as a cell edited through the numeric grid can), which the
string-typed store turns into the string `"7"` — a different value. -/
def Xc9 : Table :=
  Table.mk ["ID", "Data", "Campionato", "Partita", "Mercato", "Quota", "Esito", "Note"]
    [[Cell.str "1", Cell.str "2024-01-01", Cell.str "Serie A", Cell.str "a", Cell.str "b",
      Cell.str "1.5", Cell.str "Vinta", Cell.num 7]]

/-- C9 fails as stated for an arbitrary table: normalizing the store image of
`_normalize`'s output on `Xc9` does not reproduce that output, because
stringification turns the numeric free-text cell into a string. -/
theorem store_roundtrip_cex :
    _normalize Kind.singole "2024-05-05"
        (stringifyTable (_normalize Kind.singole "2024-05-05" Xc9))
      ≠ _normalize Kind.singole "2024-05-05" Xc9 :=
  of_decide_eq_true (by with_unfolding_all rfl)

/-- Claim C9 (amended): for every table whose cells are all strings — which is
every table actually read from the string-typed store — with the normalized id
column duplicate-free, writing `_normalize x` to the store (stringifying every
cell) and normalizing what is read back reproduces `_normalize x` exactly; no
date-default correction is needed because normalization leaves no blank dates.
The all-string proviso is the amendment: for in-memory tables holding numbers
in free-text columns the roundtrip fails, see the counterexample. -/
theorem store_roundtrip (kind : Kind) (today : String)
    (htoday : isBlankCell (Cell.str today) = false)
    {x : Table} (hwf : WF x) (hall : AllStr x)
    (hnd : (colVals (_normalize kind today x) "ID").Nodup) :
    _normalize kind today (stringifyTable (_normalize kind today x))
      = _normalize kind today x := by
  have hz := normalize_canonicalW kind today x hwf htoday
  refine normalize_stringify kind today hz hnd ?_ ?_ ?_
  · intro c hc
    rcases normalize_allStr_cells kind today hwf hall
      (d := "Data") (by cases kind <;> decide) (by decide) c hc with ⟨x0, hx0, rfl⟩
    rw [netFun_data]
    cases x0 with
    | str s => exact isStrCell_dataCoe today s
    | num q => simp [isStrCell] at hx0
    | null => simp [isStrCell] at hx0
  · intro c hc
    rcases normalize_allStr_cells kind today hwf hall
      (d := "Note") (by cases kind <;> decide) (by decide) c hc with ⟨x0, hx0, rfl⟩
    rw [netFun_note]
    cases x0 with
    | str s => rfl
    | num q => simp [isStrCell] at hx0
    | null => simp [isStrCell] at hx0
  · cases kind with
    | singole =>
      refine ⟨?_, ?_, ?_⟩
      · intro c hc
        rcases normalize_allStr_cells Kind.singole today hwf hall
          (d := "Partita") (by decide) (by decide) c hc with ⟨x0, hx0, rfl⟩
        rw [netFun_partita]
        cases x0 with
        | str s => rfl
        | num q => simp [isStrCell] at hx0
        | null => simp [isStrCell] at hx0
      · intro c hc
        rcases normalize_allStr_cells Kind.singole today hwf hall
          (d := "Mercato") (by decide) (by decide) c hc with ⟨x0, hx0, rfl⟩
        rw [netFun_mercato]
        cases x0 with
        | str s => rfl
        | num q => simp [isStrCell] at hx0
        | null => simp [isStrCell] at hx0
      · intro c hc q hq
        rcases normalize_allStr_cells Kind.singole today hwf hall
          (d := "Quota") (by decide) (by decide) c hc with ⟨x0, hx0, hceq⟩
        rw [hceq, netFun_quota] at hq
        cases x0 with
        | str s => exact decRep_toNum_str s q hq
        | num p => simp [isStrCell] at hx0
        | null => simp [isStrCell] at hx0
    | multiple =>
      refine ⟨?_, ?_, ?_⟩
      · intro c hc
        rcases normalize_allStr_cells Kind.multiple today hwf hall
          (d := "Multipla") (by decide) (by decide) c hc with ⟨x0, hx0, rfl⟩
        rw [netFun_multipla]
        cases x0 with
        | str s => rfl
        | num q => simp [isStrCell] at hx0
        | null => simp [isStrCell] at hx0
      · intro c hc q hq
        rcases normalize_allStr_cells Kind.multiple today hwf hall
          (d := "Quota Totale") (by decide) (by decide) c hc with ⟨x0, hx0, hceq⟩
        rw [hceq, netFun_quota_totale] at hq
        cases x0 with
        | str s => exact decRep_toNum_str s q hq
        | num p => simp [isStrCell] at hx0
        | null => simp [isStrCell] at hx0
      · intro c hc q hq
        rcases normalize_allStr_cells Kind.multiple today hwf hall
          (d := "Stake") (by decide) (by decide) c hc with ⟨x0, hx0, hceq⟩
        rw [hceq, netFun_stake] at hq
        cases x0 with
        | str s => exact decRep_stakeCoe_str s q hq
        | num p => simp [isStrCell] at hx0
        | null => simp [isStrCell] at hx0

/-- Concrete all-string input for the C9 witness: one row with an id, one with
a blank id, a blank date, an out-of-set league and an unparseable odds value. -/
def Xw9 : Table :=
  Table.mk ["ID", "Data", "Campionato", "Partita", "Mercato", "Quota", "Esito", "Note"]
    [[Cell.str "2", Cell.str "2024-01-02", Cell.str "Serie B", Cell.str "c", Cell.str "d",
      Cell.str "2.05", Cell.str "Persa", Cell.str ""],
     [Cell.str "", Cell.str "", Cell.str "nowhere", Cell.str "e", Cell.str "f",
      Cell.str "x", Cell.str "", Cell.str "n"]]

/-- Witness for C9: the hypotheses hold at `Xw9` and the theorem applies. -/
theorem store_roundtrip_witness :
    isBlankCell (Cell.str "2024-05-05") = false ∧
    WF Xw9 ∧ AllStr Xw9 ∧
    (colVals (_normalize Kind.singole "2024-05-05" Xw9) "ID").Nodup ∧
    _normalize Kind.singole "2024-05-05"
        (stringifyTable (_normalize Kind.singole "2024-05-05" Xw9))
      = _normalize Kind.singole "2024-05-05" Xw9 := by
  have h1 : isBlankCell (Cell.str "2024-05-05") = false := by decide
  have h2 : WF Xw9 := by decide
  have h3 : AllStr Xw9 := by decide
  have h4 : (colVals (_normalize Kind.singole "2024-05-05" Xw9) "ID").Nodup :=
    of_decide_eq_true (by with_unfolding_all rfl)
  exact ⟨h1, h2, h3, h4, store_roundtrip Kind.singole "2024-05-05" h1 h2 h3 h4⟩
